import Mathlib

/-!
# A TTL cache (`ttl.go`): shallow embedding and verified properties

The Go package keeps a `map[string]*item` behind one mutex.  Every `Add` of an absent key
allocates an item with its own `time.Timer` and starts a goroutine that waits for the timer's
channel and then deletes the key under the lock.

The embedding is a labelled transition system over a `World`:

* the `Cache` struct (fields `Duration`, `ResetOnAdd`, `items`); the map holds item *pointers*
  (addresses into `World.heap`), exactly as `map[string]*item` does;
* the Go heap of items and of runtime timers (addresses are natural numbers, allocation is
  bump allocation);
* the expiry goroutines, each with the variables its closure captured (`i`, `key`) and a
  program counter;
* the clock.

The mutex is modelled by atomicity: the body of every method (`Add`, `Get`, `TTL`, `Len`) and the
critical section of the goroutine (`delete(cache.items, key)`) is one step.  What happens outside
the lock (the goroutine evaluating `i.Timer.C`, the receive from the channel, the runtime firing a
timer, time passing) are steps of their own and interleave freely.

Time is counted in nanoseconds.  An instant (`time.Time`) is an integer; a `time.Duration` is an
integer that a Go program keeps within `int64`, and `Time.Sub` saturates at the two bounds as
documented.  `time.Timer` follows the documented behaviour of the `time` package with the classic
buffered (capacity one) timer channel: `Reset` re-arms the timer and reports whether it was still
armed, and does not drain the channel.  A call of `Add` happens at one instant: the clock readings
it makes (line 49, or lines 65 and 70) are taken to be the same.
-/

namespace ttl

/-! ## The `time` package -/

/-- Smallest value of `time.Duration` (an `int64` count of nanoseconds). -/
def minDuration : Int := -(2 ^ 63)

/-- Largest value of `time.Duration`. -/
def maxDuration : Int := 2 ^ 63 - 1

/-- The values a Go variable of type `time.Duration` can hold. -/
def isDuration (d : Int) : Prop := minDuration ≤ d ∧ d ≤ maxDuration

instance (d : Int) : Decidable (isDuration d) := by
  unfold isDuration; infer_instance

/-- One second, `time.Second`. -/
def Second : Int := 1000000000

/-- Method `Time.Add`: the instant `t + d`. -/
def Time.Add (t : Int) (d : Int) : Int := t + d

/-- Method `Time.Sub`: the duration `t - u`; "if the result exceeds the maximum (or minimum) value
that can be stored in a Duration, the maximum (or minimum) duration will be returned". -/
def Time.Sub (t u : Int) : Int :=
  if t - u < minDuration then minDuration
  else if maxDuration < t - u then maxDuration
  else t - u

/-- A runtime timer (`time.Timer`).  `deadline` is the instant before which it will not fire,
`active` says that it is armed (it has neither fired nor been stopped since it was last armed),
`C` says that its channel (capacity one) currently holds a value. -/
structure Timer where
  deadline : Int
  active : Bool
  C : Bool
deriving DecidableEq

/-- The timer that `time.NewTimer(d)` creates at instant `now`: it "will send the current time on
its channel after at least duration d". -/
def NewTimer (now : Int) (d : Int) : Timer :=
  { deadline := now + d, active := true, C := false }

/-- Method `Timer.Reset(d)` at instant `now`: it "changes the timer to expire after duration d" and
"returns true if the timer had been active, false if the timer had expired or been stopped".  The
channel is not drained. -/
def Timer.Reset (t : Timer) (now : Int) (d : Int) : Bool × Timer :=
  (t.active, { t with deadline := now + d, active := true })

/-- The runtime fires an armed timer: it is disarmed and a value is sent on its channel without
blocking (a value already buffered stays there). -/
def Timer.fire (t : Timer) : Timer :=
  { t with active := false, C := true }

/-! ## The data model of `ttl.go` -/

/-- The struct `item`: a cache item with a timer.  `Timer` is the address of the item's
`*time.Timer`; `Value` is an `interface{}`, with `none` for `nil`. -/
structure item (V : Type) where
  Start : Int
  Timer : Nat
  Duration : Int
  Value : Option V

/-- The struct `Cache` (its mutex is modelled by atomic steps).  `items` is the Go map from keys to
item pointers. -/
structure Cache where
  Duration : Int
  ResetOnAdd : Bool
  items : AList (fun _ : String => Nat)

/-- Program counter of the goroutine started by `Add`:
`spawned` — created, `i.Timer.C` not yet evaluated;
`selecting t` — blocked in `select` on the channel of timer `t`;
`locking` — a value was received, waiting for `cache.mu.Lock()`;
`done` — the key was deleted and the goroutine returned. -/
inductive PC where
  | spawned
  | selecting (t : Nat)
  | locking
  | done
deriving DecidableEq

/-- An expiry goroutine: the captured variables `i` (item pointer) and `key`, and where it is. -/
structure Watcher where
  i : Nat
  key : String
  pc : PC
deriving DecidableEq

/-- The program state: the cache, the heap of items, the runtime timers, the goroutines started so
far and the clock. -/
structure World (V : Type) where
  cache : Cache
  heap : Nat → item V
  nItems : Nat
  timers : Nat → Timer
  nTimers : Nat
  watchers : Nat → Watcher
  nWatchers : Nat
  now : Int

variable {V : Type}

/-- Function `New`: a new cache using `duration` as the cache time limit. -/
def New (duration : Int) : Cache :=
  { Duration := duration, ResetOnAdd := false, items := ∅ }

/-- The world of a program that holds cache `c` at instant `now` and has started nothing yet. -/
def World.boot (c : Cache) (now : Int) : World V :=
  { cache := c
    heap := fun _ => { Start := 0, Timer := 0, Duration := 0, Value := none }
    nItems := 0
    timers := fun _ => { deadline := 0, active := false, C := false }
    nTimers := 0
    watchers := fun _ => { i := 0, key := "", pc := PC.done }
    nWatchers := 0
    now := now }

/-- Look a key up in the map: `i, ok := cache.items[key]`. -/
def World.lookup (w : World V) (key : String) : Option Nat :=
  w.cache.items.lookup key

/-- Method `Len`: the length of items in the cache.  Returns the result and the state after. -/
def Len (w : World V) : Nat × World V :=
  (w.cache.items.entries.length, w)

/-- Method `Get`: the item's value and whether the key exists. -/
def Get (key : String) (w : World V) : (Option V × Bool) × World V :=
  match w.lookup key with
  | none => ((none, false), w)
  | some i => (((w.heap i).Value, true), w)

/-- Method `TTL`: the amount of time the key has left, `item.Start.Add(item.Duration).Sub(time.Now())`,
and whether the key exists. -/
def TTL (key : String) (w : World V) : (Int × Bool) × World V :=
  match w.lookup key with
  | none => ((0, false), w)
  | some i => ((Time.Sub (Time.Add (w.heap i).Start (w.heap i).Duration) w.now, true), w)

/-- Line 49 and 51–59 of `Add`, key absent: allocate the timer and the item, start the goroutine. -/
def World.create (w : World V) (key : String) (value : Option V) : World V × Nat :=
  ({ w with
      timers := Function.update w.timers w.nTimers (NewTimer w.now w.cache.Duration)
      nTimers := w.nTimers + 1
      heap := Function.update w.heap w.nItems
        { Start := w.now, Timer := w.nTimers, Duration := w.cache.Duration, Value := value }
      nItems := w.nItems + 1
      watchers := Function.update w.watchers w.nWatchers
        { i := w.nItems, key := key, pc := PC.spawned }
      nWatchers := w.nWatchers + 1 },
   w.nItems)

/-- Line 61 of `Add`: `i.Value = value`. -/
def World.setValue (w : World V) (i : Nat) (value : Option V) : World V :=
  { w with heap := Function.update w.heap i { w.heap i with Value := value } }

/-- Lines 65–70 of `Add`: `ok = i.Timer.Reset(i.Duration)`, a new timer when that reports false,
then `i.Start = time.Now()`. -/
def World.reset (w : World V) (i : Nat) : World V :=
  let it := w.heap i
  let r := (w.timers it.Timer).Reset w.now it.Duration
  let w1 : World V := { w with timers := Function.update w.timers it.Timer r.2 }
  let w2 : World V :=
    if r.1 then w1
    else
      { w1 with
          timers := Function.update w1.timers w1.nTimers (NewTimer w1.now it.Duration)
          nTimers := w1.nTimers + 1
          heap := Function.update w1.heap i { it with Timer := w1.nTimers } }
  { w2 with heap := Function.update w2.heap i { w2.heap i with Start := w2.now } }

/-- Line 73 of `Add`: `cache.items[key] = i`. -/
def World.store (w : World V) (key : String) (i : Nat) : World V :=
  { w with cache := { w.cache with items := w.cache.items.insert key i } }

/-- Method `Add`: adds an item to the cache, starting a timer to remove it if it does not exist; if
it does exist the value is replaced and, when `ResetOnAdd` is set, the timer is reset. -/
def Add (key : String) (value : Option V) (w : World V) : World V :=
  match w.lookup key with
  | none =>
    let r := w.create key value
    r.1.store key r.2
  | some i =>
    let w1 := w.setValue i value
    let w2 := if w1.cache.ResetOnAdd then w1.reset i else w1
    w2.store key i

/-! ## The transition system -/

/-- What can happen next: a method call by some caller, an assignment to one of the two exported
fields, the clock advancing, the runtime firing a timer, or a goroutine taking its next step. -/
inductive Action (V : Type) where
  | add (key : String) (value : Option V)
  | get (key : String)
  | ttl (key : String)
  | len
  | setDuration (d : Int)
  | setResetOnAdd (b : Bool)
  | tick (dt : Nat)
  | fire (t : Nat)
  | start (g : Nat)
  | recv (g : Nat)
  | remove (g : Nat)

/-- Assignment `cache.Duration = d`. -/
def World.setDuration (w : World V) (d : Int) : World V :=
  { w with cache := { w.cache with Duration := d } }

/-- Assignment `cache.ResetOnAdd = b`. -/
def World.setResetOnAdd (w : World V) (b : Bool) : World V :=
  { w with cache := { w.cache with ResetOnAdd := b } }

/-- The clock advances by `dt` nanoseconds. -/
def World.tick (w : World V) (dt : Nat) : World V :=
  { w with now := w.now + dt }

/-- The runtime fires timer `t`: possible once the timer is armed and its deadline is reached. -/
def World.fire (w : World V) (t : Nat) : Option (World V) :=
  if t < w.nTimers ∧ (w.timers t).active = true ∧ (w.timers t).deadline ≤ w.now then
    some { w with timers := Function.update w.timers t (w.timers t).fire }
  else none

/-- Goroutine `g` enters its `select`: it evaluates `i.Timer.C` (line 53, outside the lock) and
blocks on that channel. -/
def World.start (w : World V) (g : Nat) : Option (World V) :=
  if g < w.nWatchers ∧ (w.watchers g).pc = PC.spawned then
    some { w with
      watchers := Function.update w.watchers g
        { w.watchers g with pc := PC.selecting (w.heap (w.watchers g).i).Timer } }
  else none

/-- Goroutine `g` receives the value buffered in the channel it is blocked on and goes on to
`cache.mu.Lock()`. -/
def World.recv (w : World V) (g : Nat) : Option (World V) :=
  if g < w.nWatchers then
    match (w.watchers g).pc with
    | PC.selecting t =>
      if (w.timers t).C = true then
        some { w with
          timers := Function.update w.timers t { w.timers t with C := false }
          watchers := Function.update w.watchers g { w.watchers g with pc := PC.locking } }
      else none
    | _ => none
  else none

/-- Goroutine `g` holds the lock: `delete(cache.items, key)` (line 57), then it returns. -/
def World.remove (w : World V) (g : Nat) : Option (World V) :=
  if g < w.nWatchers ∧ (w.watchers g).pc = PC.locking then
    some { w with
      cache := { w.cache with items := w.cache.items.erase (w.watchers g).key }
      watchers := Function.update w.watchers g { w.watchers g with pc := PC.done } }
  else none

/-- One step of the program; `none` when the action is not enabled in `w`. -/
def step (w : World V) : Action V → Option (World V)
  | Action.add key value => some (Add key value w)
  | Action.get key => some (Get key w).2
  | Action.ttl key => some (TTL key w).2
  | Action.len => some (Len w).2
  | Action.setDuration d => some (w.setDuration d)
  | Action.setResetOnAdd b => some (w.setResetOnAdd b)
  | Action.tick dt => some (w.tick dt)
  | Action.fire t => w.fire t
  | Action.start g => w.start g
  | Action.recv g => w.recv g
  | Action.remove g => w.remove g

/-- Run a sequence of actions; `none` when one of them is not enabled. -/
def run (w : World V) : List (Action V) → Option (World V)
  | [] => some w
  | a :: as => (step w a).bind fun w1 => run w1 as

/-- The states a program can be in: those an execution reaches from a freshly built cache. -/
def Reachable (w : World V) : Prop :=
  ∃ (d : Int) (t0 : Int) (as : List (Action V)), run (World.boot (New d) t0) as = some w

/-- An action is a call `Add(key, _)`. -/
def Action.isAdd (key : String) : Action V → Bool
  | Action.add k _ => decide (k = key)
  | _ => false

/-- The second result of `Get` after running `as` from `w`, if the run is possible. -/
def foundAfter (key : String) (w : World V) (as : List (Action V)) : Option Bool :=
  (run w as).map fun w1 => (Get key w1).1.2

/-- The first result of `TTL` after running `as` from `w`, if the run is possible. -/
def ttlAfter (key : String) (w : World V) (as : List (Action V)) : Option Int :=
  (run w as).map fun w1 => (TTL key w1).1.1

/-- Two states that agree on everything that decides when entries expire: the configuration, which
keys map to which item, every item's `Start`, `Timer` and `Duration`, all timers, all goroutines
and the clock.  They may differ in the values stored and in the iteration order of the map. -/
def World.sameTiming (w1 w2 : World V) : Prop :=
  w1.cache.Duration = w2.cache.Duration ∧
  w1.cache.ResetOnAdd = w2.cache.ResetOnAdd ∧
  (∀ k, w1.lookup k = w2.lookup k) ∧
  (∀ p, (w1.heap p).Start = (w2.heap p).Start ∧ (w1.heap p).Timer = (w2.heap p).Timer ∧
    (w1.heap p).Duration = (w2.heap p).Duration) ∧
  w1.nItems = w2.nItems ∧
  w1.timers = w2.timers ∧
  w1.nTimers = w2.nTimers ∧
  w1.watchers = w2.watchers ∧
  w1.nWatchers = w2.nWatchers ∧
  w1.now = w2.now

/-- Heap discipline of the program, true in every reachable state: the map holds allocated items
with allocated timers, distinct keys own distinct timers (hence distinct items), every goroutine
that has not returned belongs to a key of the map and holds that key's item, no two such goroutines
share a key, and every key of the map has such a goroutine. -/
structure World.Inv (w : World V) : Prop where
  item_lt : ∀ k i, w.lookup k = some i → i < w.nItems
  timer_lt : ∀ k i, w.lookup k = some i → (w.heap i).Timer < w.nTimers
  timer_inj : ∀ k1 k2 i1 i2, w.lookup k1 = some i1 → w.lookup k2 = some i2 →
    (w.heap i1).Timer = (w.heap i2).Timer → k1 = k2
  watcher_key : ∀ g, g < w.nWatchers → (w.watchers g).pc ≠ PC.done →
    w.lookup (w.watchers g).key = some (w.watchers g).i
  watcher_inj : ∀ g1 g2, g1 < w.nWatchers → g2 < w.nWatchers →
    (w.watchers g1).pc ≠ PC.done → (w.watchers g2).pc ≠ PC.done →
    (w.watchers g1).key = (w.watchers g2).key → g1 = g2
  key_watched : ∀ k i, w.lookup k = some i →
    ∃ g, g < w.nWatchers ∧ (w.watchers g).pc ≠ PC.done ∧ (w.watchers g).key = k

/-- Key `key` is guarded until `deadline` by goroutine `g`: the key is in the map, its item's timer
is armed for `deadline` with an empty channel, and `g`, the goroutine of that key, has not got
past its `select`, which is (or will be) on that very timer. -/
def World.armedUntil (w : World V) (key : String) (g : Nat) (deadline : Int) : Prop :=
  ∃ i, w.lookup key = some i ∧
    (w.timers (w.heap i).Timer).active = true ∧
    (w.timers (w.heap i).Timer).C = false ∧
    (w.timers (w.heap i).Timer).deadline = deadline ∧
    g < w.nWatchers ∧ (w.watchers g).key = key ∧
    ((w.watchers g).pc = PC.spawned ∨ (w.watchers g).pc = PC.selecting (w.heap i).Timer)

/-- The shared memory the mutex is there to guard: the map `cache.items` and the fields of the
item at a given address. -/
inductive Loc where
  | items
  | Start (i : Nat)
  | Timer (i : Nat)
  | Duration (i : Nat)
  | Value (i : Nat)
deriving DecidableEq

/-- Whether a step runs between `cache.mu.Lock()` and `cache.mu.Unlock()`: the bodies of `Add`,
`Get`, `TTL`, `Len` (lock on entry, unlock deferred) and the goroutine's `delete` (lines 54–57)
do; the goroutine's evaluation of `i.Timer.C` and its receive (line 53), the runtime and plain
assignments by the caller do not. -/
def Action.holdsLock : Action V → Bool
  | Action.add _ _ => true
  | Action.get _ => true
  | Action.ttl _ => true
  | Action.len => true
  | Action.remove _ => true
  | _ => false

/-- The guarded locations a step reads in state `w`.  `Add`: the map (line 47) and, when it resets
a present key, `i.Timer` and `i.Duration` (line 65).  `Get`: the map and `item.Value`.  `TTL`: the
map, `item.Start` and `item.Duration`.  `Len`: the map.  The goroutine entering its `select`:
`i.Timer` (line 53). -/
def World.reads (w : World V) : Action V → List Loc
  | Action.add key _ =>
    match w.lookup key with
    | none => [Loc.items]
    | some i => if w.cache.ResetOnAdd then [Loc.items, Loc.Timer i, Loc.Duration i] else [Loc.items]
  | Action.get key =>
    match w.lookup key with
    | none => [Loc.items]
    | some i => [Loc.items, Loc.Value i]
  | Action.ttl key =>
    match w.lookup key with
    | none => [Loc.items]
    | some i => [Loc.items, Loc.Start i, Loc.Duration i]
  | Action.len => [Loc.items]
  | Action.start g => [Loc.Timer (w.watchers g).i]
  | _ => []

/-- The guarded locations a step writes in state `w`.  `Add`: the map (line 73) and, for a present
key, `i.Value` (line 61) and under reset `i.Start` (line 70) and, when `Reset` reports false,
`i.Timer` (line 67); the item of an absent key is filled in before anything else can see it.  The
goroutine's `delete`: the map. -/
def World.writes (w : World V) : Action V → List Loc
  | Action.add key _ =>
    match w.lookup key with
    | none => [Loc.items]
    | some i =>
      if w.cache.ResetOnAdd then
        if (w.timers (w.heap i).Timer).active then [Loc.Value i, Loc.Start i, Loc.items]
        else [Loc.Value i, Loc.Timer i, Loc.Start i, Loc.items]
      else [Loc.Value i, Loc.items]
  | Action.remove _ => [Loc.items]
  | _ => []

/-- Two steps, both possible in `w`, form a data race: they touch a common guarded location, one
of them writes it, and they do not both hold the lock. -/
def World.dataRace (w : World V) (a b : Action V) : Bool :=
  (step w a).isSome && (step w b).isSome &&
    !(a.holdsLock && b.holdsLock) &&
    ((w.writes a).any (fun l => (w.reads b).contains l || (w.writes b).contains l) ||
      (w.writes b).any (fun l => (w.reads a).contains l))

/-! ## Basic facts about the map and the helpers of `Add` -/

theorem lookup_store (w : World V) (key : String) (i : Nat) (k : String) :
    (w.store key i).lookup k = if k = key then some i else w.lookup k := by
  unfold World.store World.lookup
  by_cases h : k = key
  · subst h; simp
  · simp [h, AList.lookup_insert_ne h]

theorem lookup_setValue (w : World V) (i : Nat) (value : Option V) (k : String) :
    (w.setValue i value).lookup k = w.lookup k := rfl

theorem lookup_reset (w : World V) (i : Nat) (k : String) :
    (w.reset i).lookup k = w.lookup k := by
  unfold World.reset World.lookup
  dsimp only
  split <;> rfl

theorem lookup_create (w : World V) (key : String) (value : Option V) (k : String) :
    (w.create key value).1.lookup k = w.lookup k := rfl

theorem Add_absent (w : World V) (key : String) (value : Option V) (h : w.lookup key = none) :
    Add key value w = (w.create key value).1.store key w.nItems := by
  unfold Add
  rw [h]
  rfl

theorem Add_present (w : World V) (key : String) (value : Option V) (i : Nat)
    (h : w.lookup key = some i) :
    Add key value w =
      (if w.cache.ResetOnAdd then (w.setValue i value).reset i else w.setValue i value).store
        key i := by
  unfold Add
  rw [h]
  rfl

theorem heap_store (w : World V) (key : String) (i : Nat) : (w.store key i).heap = w.heap := rfl

theorem Value_reset (w : World V) (i : Nat) : ((w.reset i).heap i).Value = (w.heap i).Value := by
  unfold World.reset
  dsimp only
  split <;> simp

theorem lookup_Add_self (w : World V) (key : String) (value : Option V) :
    (Add key value w).lookup key = some ((w.lookup key).getD w.nItems) := by
  cases h : w.lookup key with
  | none => rw [Add_absent w key value h, lookup_store]; simp
  | some i => rw [Add_present w key value i h, lookup_store]; simp

theorem lookup_Add_other (w : World V) (key : String) (value : Option V) (k : String)
    (hk : k ≠ key) : (Add key value w).lookup k = w.lookup k := by
  cases h : w.lookup key with
  | none => rw [Add_absent w key value h, lookup_store, if_neg hk, lookup_create]
  | some i =>
    rw [Add_present w key value i h, lookup_store, if_neg hk]
    split
    · rw [lookup_reset, lookup_setValue]
    · rw [lookup_setValue]

theorem Get_eq (w : World V) (key : String) :
    (Get key w).1 = match w.lookup key with
      | none => (none, false)
      | some i => ((w.heap i).Value, true) := by
  unfold Get
  cases w.lookup key <;> rfl

theorem TTL_eq (w : World V) (key : String) :
    (TTL key w).1 = match w.lookup key with
      | none => (0, false)
      | some i => (Time.Sub (Time.Add (w.heap i).Start (w.heap i).Duration) w.now, true) := by
  unfold TTL
  cases w.lookup key <;> rfl

theorem Get_state (w : World V) (k : String) : (Get k w).2 = w := by
  unfold Get; cases w.lookup k <;> rfl

theorem TTL_state (w : World V) (k : String) : (TTL k w).2 = w := by
  unfold TTL; cases w.lookup k <;> rfl

/-! ## Value overwrite -/

/-- Claim C1: for every state, key and value, and for both settings of `ResetOnAdd`, whether or not
the key was present, `Get(k)` directly after `Add(k, v)` returns `(v, true)`. -/
theorem Get_after_Add (w : World V) (k : String) (v : Option V) :
    (Get k (Add k v w)).1 = (v, true) := by
  rw [Get_eq, lookup_Add_self]
  cases h : w.lookup k with
  | none =>
    rw [Add_absent w k v h]
    simp [World.store, World.create]
  | some i =>
    rw [Add_present w k v i h, heap_store]
    cases w.cache.ResetOnAdd
    · simp [World.setValue]
    · simp [Value_reset, World.setValue]

/-! ## `TTL`, `Len` and the read-only methods -/

theorem Time.Sub_eq (t u : Int) : Time.Sub t u = max minDuration (min maxDuration (t - u)) := by
  unfold Time.Sub minDuration maxDuration
  split_ifs <;> omega

theorem Time.Sub_of_isDuration (t u : Int) (h : isDuration (t - u)) : Time.Sub t u = t - u := by
  unfold isDuration at h
  unfold Time.Sub
  split_ifs <;> omega

/-- Claim C7, as amended: `TTL(k)` of a present key returns `Start + Duration - now` brought into
the range of `time.Duration` (saturating at `-2^63` and `2^63 - 1`, never clamped at zero) together
with `true`; `TTL(k)` of an absent key returns `(0, false)`. -/
theorem TTL_value (w : World V) (k : String) :
    (TTL k w).1 = match w.lookup k with
      | none => (0, false)
      | some i =>
        (max minDuration (min maxDuration ((w.heap i).Start + (w.heap i).Duration - w.now)),
          true) := by
  rw [TTL_eq]
  cases w.lookup k with
  | none => rfl
  | some i => simp only [Time.Sub_eq, Time.Add]

/-- Claim C7 as stated fails: with `Duration = -2^63`, one nanosecond after the `Add` the value
`Start + Duration - now` is `-2^63 - 1`, which no `time.Duration` holds; `TTL` returns `-2^63`. -/
theorem TTL_value_counterexample :
    ((Add "a" (some "1") (World.boot (New minDuration) 0 : World String)).tick 1).lookup "a"
        = some 0 ∧
      (((Add "a" (some "1") (World.boot (New minDuration) 0 : World String)).tick 1).heap 0).Start
        + (((Add "a" (some "1") (World.boot (New minDuration) 0 : World String)).tick 1).heap
            0).Duration
        - ((Add "a" (some "1") (World.boot (New minDuration) 0 : World String)).tick 1).now
        = -(2 ^ 63) - 1 ∧
      (TTL "a" ((Add "a" (some "1") (World.boot (New minDuration) 0 : World String)).tick 1)).1
        = (-(2 ^ 63), true) := by
  decide

/-- Claim C8: `Add(k, v)` of an absent key at instant `t` inserts an item with `Start = t`,
`Duration` the cache's `Duration`, `Value = v`, whose timer is armed for `t + Duration`, and starts
its goroutine; `TTL(k)` at the same instant returns `(cache.Duration, true)`. -/
theorem Add_absent_spec (w : World V) (k : String) (v : Option V)
    (habs : w.lookup k = none) (hd : isDuration w.cache.Duration) :
    (Add k v w).lookup k = some w.nItems ∧
      (Add k v w).heap w.nItems =
        { Start := w.now, Timer := w.nTimers, Duration := w.cache.Duration, Value := v } ∧
      (Add k v w).timers w.nTimers =
        { deadline := w.now + w.cache.Duration, active := true, C := false } ∧
      (Add k v w).watchers w.nWatchers = { i := w.nItems, key := k, pc := PC.spawned } ∧
      (Add k v w).now = w.now ∧
      (TTL k (Add k v w)).1 = (w.cache.Duration, true) := by
  have hl : (Add k v w).lookup k = some w.nItems := by rw [lookup_Add_self, habs]; rfl
  refine ⟨hl, ?_, ?_, ?_, ?_, ?_⟩
  · rw [Add_absent w k v habs]; simp [World.store, World.create]
  · rw [Add_absent w k v habs]; simp [World.store, World.create, NewTimer]
  · rw [Add_absent w k v habs]; simp [World.store, World.create]
  · rw [Add_absent w k v habs]; rfl
  · rw [TTL_eq, hl]
    rw [Add_absent w k v habs]
    simp only [World.store, World.create, Function.update_same, Time.Add]
    rw [Time.Sub_of_isDuration]
    · simp
    · simpa using hd

/-- Witness for claim C8: a first `Add` on a one-second cache. -/
theorem Add_absent_spec_witness :
    (Add "item" (some "1") (World.boot (New Second) 0 : World String)).lookup "item" = some 0 ∧
      (TTL "item" (Add "item" (some "1") (World.boot (New Second) 0 : World String))).1
        = (Second, true) :=
  have h := Add_absent_spec (World.boot (New Second) 0 : World String) "item" (some "1")
    (by decide) (by decide)
  ⟨h.1, h.2.2.2.2.2⟩

theorem Get_found_iff (w : World V) (k : String) :
    (Get k w).1.2 = true ↔ k ∈ w.cache.items.keys := by
  rw [Get_eq, ← AList.mem_keys, ← AList.lookup_isSome]
  unfold World.lookup
  cases w.cache.items.lookup k <;> simp

/-- Claim C9: in every state `Len()` is the number of keys for which `Get` reports `found = true`. -/
theorem Len_eq_card_found (w : World V) :
    (Len w).1 = Set.ncard {k : String | (Get k w).1.2 = true} := by
  have hset : {k : String | (Get k w).1.2 = true} = ↑(w.cache.items.keys.toFinset) := by
    ext k
    simp [Get_found_iff]
  rw [hset, Set.ncard_coe_Finset, List.toFinset_card_of_nodup w.cache.items.keys_nodup]
  simp [Len, AList.keys, List.keys]

/-- Claim C10: `Get`, `TTL` and `Len` are read-only: each returns the state it was called in, as a
method call and as a step of the program, whatever the key and however late the clock. -/
theorem readers_leave_state (w : World V) (k : String) :
    (Get k w).2 = w ∧ (TTL k w).2 = w ∧ (Len w).2 = w ∧
      step w (Action.get k) = some w ∧ step w (Action.ttl k) = some w ∧
      step w Action.len = some w := by
  have hg := Get_state w k
  have ht := TTL_state w k
  refine ⟨hg, ht, rfl, ?_, ?_, rfl⟩
  · simp [step, hg]
  · simp [step, ht]

/-! ## The reset branch of `Add` and the captured duration -/

theorem reset_item (w : World V) (i : Nat) :
    ((w.reset i).heap i).Duration = (w.heap i).Duration ∧
      ((w.reset i).heap i).Start = w.now ∧
      ((w.reset i).timers ((w.reset i).heap i).Timer).deadline = w.now + (w.heap i).Duration ∧
      ((w.reset i).timers ((w.reset i).heap i).Timer).active = true := by
  unfold World.reset
  dsimp only
  cases h : (w.timers (w.heap i).Timer).active <;>
    simp [Timer.Reset, NewTimer, h]

/-- Claim C6: an item's duration is captured when the item is created.  Assigning `cache.Duration`
changes no item, timer, goroutine or `TTL`; a later `Add` of a present key under `ResetOnAdd`
re-arms its timer for the item's own `Duration`; a later `Add` of an absent key uses the new
`cache.Duration`. -/
theorem Duration_captured (w : World V) (d : Int) (k : String) (v : Option V) :
    ((w.setDuration d).heap = w.heap ∧ (w.setDuration d).timers = w.timers ∧
      (w.setDuration d).watchers = w.watchers ∧
      (∀ k1, (w.setDuration d).lookup k1 = w.lookup k1) ∧
      (∀ k1 dt, (TTL k1 ((w.setDuration d).tick dt)).1 = (TTL k1 (w.tick dt)).1)) ∧
    (∀ i, w.lookup k = some i → w.cache.ResetOnAdd = true →
      (Add k v (w.setDuration d)).lookup k = some i ∧
      ((Add k v (w.setDuration d)).heap i).Duration = (w.heap i).Duration ∧
      ((Add k v (w.setDuration d)).heap i).Start = w.now ∧
      ((Add k v (w.setDuration d)).timers ((Add k v (w.setDuration d)).heap i).Timer).deadline
        = w.now + (w.heap i).Duration ∧
      ((Add k v (w.setDuration d)).timers ((Add k v (w.setDuration d)).heap i).Timer).active
        = true) ∧
    (w.lookup k = none →
      (Add k v (w.setDuration d)).lookup k = some w.nItems ∧
      ((Add k v (w.setDuration d)).heap w.nItems).Duration = d ∧
      ((Add k v (w.setDuration d)).timers
        ((Add k v (w.setDuration d)).heap w.nItems).Timer).deadline = w.now + d) := by
  refine ⟨⟨rfl, rfl, rfl, fun _ => rfl, fun k1 dt => by rw [TTL_eq, TTL_eq]; rfl⟩, ?_, ?_⟩
  · intro i hk hr
    have hk1 : (w.setDuration d).lookup k = some i := hk
    have hr1 : (w.setDuration d).cache.ResetOnAdd = true := hr
    have hl : (Add k v (w.setDuration d)).lookup k = some i := by
      rw [lookup_Add_self, hk1]; rfl
    rw [Add_present _ k v i hk1, if_pos hr1] at *
    have h := reset_item ((w.setDuration d).setValue i v) i
    simp only [heap_store]
    refine ⟨hl, ?_, ?_, ?_, ?_⟩
    · rw [h.1]; simp [World.setValue, World.setDuration]
    · rw [h.2.1]; rfl
    · have h3 := h.2.2.1
      simp only [World.store] at *
      rw [h3]; simp [World.setValue, World.setDuration]
    · have h4 := h.2.2.2
      simp only [World.store] at *
      rw [h4]
  · intro hk
    have hk1 : (w.setDuration d).lookup k = none := hk
    have hl : (Add k v (w.setDuration d)).lookup k = some w.nItems := by
      rw [lookup_Add_self, hk1]; rfl
    refine ⟨hl, ?_, ?_⟩
    · rw [Add_absent _ k v hk1]
      simp [World.store, World.create, World.setDuration]
    · rw [Add_absent _ k v hk1]
      simp [World.store, World.create, World.setDuration, NewTimer]

/-- Witness for claim C6: `New(1s)`, `Add("item")`, `Duration = 2s`, then `Add("next")` (a new key,
armed for two seconds) and, with `ResetOnAdd` set, `Add("item")` again (re-armed for one second). -/
theorem Duration_captured_witness :
    ((Add "next" (some "2")
        ((Add "item" (some "1") (World.boot (New Second) 0 : World String)).setDuration
          (2 * Second))).heap 1).Duration = 2 * Second ∧
      ((Add "item" (some "3")
        (((Add "item" (some "1") (World.boot (New Second) 0 : World String)).setResetOnAdd
          true).setDuration (2 * Second))).heap 0).Duration = Second :=
  ⟨((Duration_captured (Add "item" (some "1") (World.boot (New Second) 0 : World String))
      (2 * Second) "next" (some "2")).2.2 (by decide)).2.1,
   ((Duration_captured
      ((Add "item" (some "1") (World.boot (New Second) 0 : World String)).setResetOnAdd true)
      (2 * Second) "item" (some "3")).2.1 0 (by decide) (by decide)).2.1⟩

/-! ## `Add` without reset: only the value changes -/

theorem sameTiming_refl (w : World V) : w.sameTiming w :=
  ⟨rfl, rfl, fun _ => rfl, fun _ => ⟨rfl, rfl, rfl⟩, rfl, rfl, rfl, rfl, rfl, rfl⟩

theorem sameTiming_store (w1 w2 : World V) (h : w1.sameTiming w2) (key : String) (i : Nat) :
    (w1.store key i).sameTiming (w2.store key i) := by
  obtain ⟨hD, hR, hl, hh, hni, ht, hnt, hw, hnw, hnow⟩ := h
  refine ⟨hD, hR, ?_, hh, hni, ht, hnt, hw, hnw, hnow⟩
  intro k
  rw [lookup_store, lookup_store, hl k]

theorem sameTiming_setValue (w1 w2 : World V) (h : w1.sameTiming w2) (i : Nat)
    (v1 v2 : Option V) : (w1.setValue i v1).sameTiming (w2.setValue i v2) := by
  obtain ⟨hD, hR, hl, hh, hni, ht, hnt, hw, hnw, hnow⟩ := h
  refine ⟨hD, hR, hl, ?_, hni, ht, hnt, hw, hnw, hnow⟩
  intro p
  by_cases hp : p = i
  · subst hp; simpa [World.setValue] using hh p
  · simpa [World.setValue, Function.update_noteq hp] using hh p

theorem sameTiming_create (w1 w2 : World V) (h : w1.sameTiming w2) (key : String)
    (v1 v2 : Option V) :
    (w1.create key v1).1.sameTiming (w2.create key v2).1 ∧
      (w1.create key v1).2 = (w2.create key v2).2 := by
  obtain ⟨hD, hR, hl, hh, hni, ht, hnt, hw, hnw, hnow⟩ := h
  refine ⟨⟨hD, hR, hl, ?_, ?_, ?_, ?_, ?_, ?_, hnow⟩, hni⟩
  · intro p
    by_cases hp : p = w2.nItems
    · subst hp; simp [World.create, hni, hnow, hnt, hD]
    · simpa [World.create, hni, Function.update_noteq hp] using hh p
  · simp [World.create, hni]
  · simp [World.create, ht, hnt, hnow, hD]
  · simp [World.create, hnt]
  · simp [World.create, hw, hnw, hni]
  · simp [World.create, hnw]

theorem reset_armed (w : World V) (i : Nat)
    (h : (w.timers (w.heap i).Timer).active = true) :
    w.reset i =
      { w with
        timers := Function.update w.timers (w.heap i).Timer
          { w.timers (w.heap i).Timer with deadline := w.now + (w.heap i).Duration }
        heap := Function.update w.heap i { w.heap i with Start := w.now } } := by
  unfold World.reset
  simp [Timer.Reset, h]

theorem reset_fired (w : World V) (i : Nat)
    (h : (w.timers (w.heap i).Timer).active = false) :
    w.reset i =
      { w with
        timers := Function.update
          (Function.update w.timers (w.heap i).Timer
            { w.timers (w.heap i).Timer with
              deadline := w.now + (w.heap i).Duration, active := true })
          w.nTimers (NewTimer w.now (w.heap i).Duration)
        nTimers := w.nTimers + 1
        heap := Function.update w.heap i
          { w.heap i with Start := w.now, Timer := w.nTimers } } := by
  unfold World.reset
  simp [Timer.Reset, h]

theorem sameTiming_reset (w1 w2 : World V) (h : w1.sameTiming w2) (i : Nat) :
    (w1.reset i).sameTiming (w2.reset i) := by
  obtain ⟨hD, hR, hl, hh, hni, ht, hnt, hw, hnw, hnow⟩ := h
  obtain ⟨hS, hT, hDu⟩ := hh i
  cases hact : (w2.timers (w2.heap i).Timer).active
  · have hact1 : (w1.timers (w1.heap i).Timer).active = false := by rw [ht, hT, hact]
    rw [reset_fired w1 i hact1, reset_fired w2 i hact]
    refine ⟨hD, hR, hl, ?_, hni, ?_, ?_, hw, hnw, hnow⟩
    · intro p
      by_cases hp : p = i
      · subst hp; simp [hDu, hnow, hnt]
      · simpa [Function.update_noteq hp] using hh p
    · simp only [ht, hT, hDu, hnow, hnt]
    · simp only [hnt]
  · have hact1 : (w1.timers (w1.heap i).Timer).active = true := by rw [ht, hT, hact]
    rw [reset_armed w1 i hact1, reset_armed w2 i hact]
    refine ⟨hD, hR, hl, ?_, hni, ?_, hnt, hw, hnw, hnow⟩
    · intro p
      by_cases hp : p = i
      · subst hp; simp [hDu, hnow, hT]
      · simpa [Function.update_noteq hp] using hh p
    · simp only [ht, hT, hDu, hnow]

theorem sameTiming_Add (w1 w2 : World V) (h : w1.sameTiming w2) (key : String)
    (v : Option V) : (Add key v w1).sameTiming (Add key v w2) := by
  have hl := h.2.2.1 key
  have hR := h.2.1
  cases hk : w2.lookup key with
  | none =>
    rw [Add_absent w2 key v hk, Add_absent w1 key v (hl.trans hk), h.2.2.2.2.1]
    exact sameTiming_store _ _ (sameTiming_create w1 w2 h key v v).1 key _
  | some i =>
    rw [Add_present w2 key v i hk, Add_present w1 key v i (hl.trans hk), hR]
    apply sameTiming_store
    cases w2.cache.ResetOnAdd
    · simpa using sameTiming_setValue w1 w2 h i v v
    · simpa using sameTiming_reset _ _ (sameTiming_setValue w1 w2 h i v v) i

theorem sameTiming_step (w1 w2 : World V) (h : w1.sameTiming w2) (a : Action V) :
    Option.Rel World.sameTiming (step w1 a) (step w2 a) := by
  have h0 := h
  obtain ⟨hD, hR, hl, hh, hni, ht, hnt, hw, hnw, hnow⟩ := h
  cases a with
  | add key value => exact Option.Rel.some (sameTiming_Add w1 w2 h0 key value)
  | get key =>
    rw [step, step, Get_state w1 key, Get_state w2 key]
    exact Option.Rel.some h0
  | ttl key =>
    rw [step, step, TTL_state w1 key, TTL_state w2 key]
    exact Option.Rel.some h0
  | len => exact Option.Rel.some h0
  | setDuration d =>
    exact Option.Rel.some ⟨rfl, hR, hl, hh, hni, ht, hnt, hw, hnw, hnow⟩
  | setResetOnAdd b =>
    exact Option.Rel.some ⟨hD, rfl, hl, hh, hni, ht, hnt, hw, hnw, hnow⟩
  | tick dt =>
    refine Option.Rel.some ⟨hD, hR, hl, hh, hni, ht, hnt, hw, hnw, ?_⟩
    simp [World.tick, hnow]
  | fire t =>
    simp only [step, World.fire, ht, hnt, hnow]
    split_ifs
    · refine Option.Rel.some ⟨?_, ?_, ?_, ?_, ?_, ?_, ?_, ?_, ?_, ?_⟩ <;> first | rfl | assumption
    · exact Option.Rel.none
  | start g =>
    simp only [step, World.start, hw, hnw, (hh _).2.1]
    split_ifs
    · refine Option.Rel.some ⟨?_, ?_, ?_, ?_, ?_, ?_, ?_, ?_, ?_, ?_⟩ <;> first | rfl | assumption
    · exact Option.Rel.none
  | recv g =>
    simp only [step, World.recv, hw, hnw, ht]
    split_ifs
    · split
      · split_ifs
        · refine Option.Rel.some ⟨?_, ?_, ?_, ?_, ?_, ?_, ?_, ?_, ?_, ?_⟩ <;> first | rfl | assumption
        · exact Option.Rel.none
      · exact Option.Rel.none
    · exact Option.Rel.none
  | remove g =>
    simp only [step, World.remove, hw, hnw]
    split_ifs
    · refine Option.Rel.some ⟨hD, hR, ?_, hh, hni, ht, hnt, rfl, rfl, hnow⟩
      intro k
      have := hl k
      unfold World.lookup at this ⊢
      by_cases hk : k = (w2.watchers g).key
      · subst hk; simp
      · simp [AList.lookup_erase_ne hk, this]
    · exact Option.Rel.none

theorem sameTiming_run (as : List (Action V)) (w1 w2 : World V) (h : w1.sameTiming w2) :
    Option.Rel World.sameTiming (run w1 as) (run w2 as) := by
  induction as generalizing w1 w2 with
  | nil => exact Option.Rel.some h
  | cons a as ih =>
    simp only [run]
    have h1 := sameTiming_step w1 w2 h a
    generalize step w1 a = x at h1 ⊢
    generalize step w2 a = y at h1 ⊢
    cases h1 with
    | some h2 => simpa using ih _ _ h2
    | none => exact Option.Rel.none

theorem sameTiming_observe (w1 w2 : World V) (h : w1.sameTiming w2) (k : String) :
    (Get k w1).1.2 = (Get k w2).1.2 ∧ (TTL k w1).1 = (TTL k w2).1 := by
  obtain ⟨hD, hR, hl, hh, hni, ht, hnt, hw, hnw, hnow⟩ := h
  rw [Get_eq, Get_eq, TTL_eq, TTL_eq, hl k, hnow]
  cases hk : w2.lookup k with
  | none => exact ⟨rfl, rfl⟩
  | some i => simp [(hh i).1, (hh i).2.2]

theorem Add_no_reset_sameTiming (w : World V) (k : String) (i : Nat) (v : Option V)
    (hk : w.lookup k = some i) (hr : w.cache.ResetOnAdd = false) :
    (Add k v w).sameTiming w := by
  rw [Add_present w k v i hk, hr]
  simp only [Bool.false_eq_true, if_false]
  refine ⟨rfl, rfl, ?_, ?_, rfl, rfl, rfl, rfl, rfl, rfl⟩
  · intro k1
    rw [lookup_store]
    split_ifs with h
    · rw [h, hk]
    · rfl
  · intro p
    by_cases hp : p = i
    · subst hp; simp [World.store, World.setValue]
    · simp [World.store, World.setValue, Function.update_noteq hp]

/-- Claim C4: with `ResetOnAdd` false, `Add(k, v)` of a present key changes only the item's value:
its `Start`, `Duration` and timer (hence the deadline) are as before, every timer and goroutine is
as before, `TTL(k)` at any later instant is what it would have been, and in every continuation of
the program every key is found exactly when it would have been found without the `Add`. -/
theorem Add_no_reset_only_value (w : World V) (k : String) (i : Nat) (v : Option V)
    (hk : w.lookup k = some i) (hr : w.cache.ResetOnAdd = false) :
    (∀ k1, (Add k v w).lookup k1 = w.lookup k1) ∧
      (Add k v w).heap = Function.update w.heap i { w.heap i with Value := v } ∧
      (Add k v w).timers = w.timers ∧
      (Add k v w).watchers = w.watchers ∧
      (Add k v w).now = w.now ∧
      (∀ dt, (TTL k ((Add k v w).tick dt)).1 = (TTL k (w.tick dt)).1) ∧
      (∀ as k1, foundAfter k1 (Add k v w) as = foundAfter k1 w as) ∧
      (∀ as k1, ttlAfter k1 (Add k v w) as = ttlAfter k1 w as) := by
  have hs := Add_no_reset_sameTiming w k i v hk hr
  have hrun : ∀ as, Option.Rel World.sameTiming (run (Add k v w) as) (run w as) :=
    fun as => sameTiming_run as _ _ hs
  refine ⟨hs.2.2.1, ?_, hs.2.2.2.2.2.1, hs.2.2.2.2.2.2.2.1, hs.2.2.2.2.2.2.2.2.2, ?_, ?_, ?_⟩
  · rw [Add_present w k v i hk, hr]; rfl
  · intro dt
    have h1 : ((Add k v w).tick dt).sameTiming (w.tick dt) :=
      ⟨hs.1, hs.2.1, hs.2.2.1, hs.2.2.2.1, hs.2.2.2.2.1, hs.2.2.2.2.2.1, hs.2.2.2.2.2.2.1,
        hs.2.2.2.2.2.2.2.1, hs.2.2.2.2.2.2.2.2.1,
        by simp [World.tick, hs.2.2.2.2.2.2.2.2.2]⟩
    exact (sameTiming_observe _ _ h1 k).2
  · intro as k1
    unfold foundAfter
    have h1 := hrun as
    generalize run (Add k v w) as = x at h1 ⊢
    generalize run w as = y at h1 ⊢
    cases h1 with
    | some h2 => simpa using (sameTiming_observe _ _ h2 k1).1
    | none => rfl
  · intro as k1
    unfold ttlAfter
    have h1 := hrun as
    generalize run (Add k v w) as = x at h1 ⊢
    generalize run w as = y at h1 ⊢
    cases h1 with
    | some h2 => simp [(sameTiming_observe _ _ h2 k1).2]
    | none => rfl

/-- Witness for claim C4: a two-second cache without reset, `Add` at 0s and again at 1s; the timer
still fires at 2s and at 2.2s the key is not found. -/
theorem Add_no_reset_only_value_witness :
    foundAfter "a"
        (Add "a" (some "2")
          ((Add "a" (some "1") (World.boot (New (2 * Second)) 0 : World String)).tick 1000000000))
        [Action.start 0, Action.tick 1000000000, Action.fire 0, Action.recv 0, Action.remove 0,
          Action.tick 200000000] = some false :=
  ((Add_no_reset_only_value
      ((Add "a" (some "1") (World.boot (New (2 * Second)) 0 : World String)).tick 1000000000)
      "a" 0 (some "2") (by decide) (by decide)).2.2.2.2.2.2.1 _ "a").trans (by decide)

/-! ## The heap discipline is an invariant -/

theorem World.Inv.item_inj {w : World V} (h : w.Inv) (k1 k2 : String) (i : Nat)
    (h1 : w.lookup k1 = some i) (h2 : w.lookup k2 = some i) : k1 = k2 :=
  h.timer_inj k1 k2 i i h1 h2 rfl

theorem Inv_boot (c : Cache) (hc : c.items = ∅) (t0 : Int) : (World.boot c t0 : World V).Inv := by
  have hl : ∀ k, (World.boot c t0 : World V).lookup k = none := by
    intro k; simp [World.lookup, World.boot, hc]
  constructor
  · intro k i h; rw [hl] at h; cases h
  · intro k i h; rw [hl] at h; cases h
  · intro k1 k2 i1 i2 h; rw [hl] at h; cases h
  · intro g hg; simp [World.boot] at hg
  · intro g1 g2 hg; simp [World.boot] at hg
  · intro k i h; rw [hl] at h; cases h

/-- A state change that keeps the map, the item count, and the key, item and liveness of every
goroutine, and that changes the `Timer` field of at most one item, to a freshly allocated timer,
keeps the heap discipline. -/
theorem Inv_frame {w w1 : World V} (h : w.Inv) (i : Nat)
    (hl : ∀ k, w1.lookup k = w.lookup k) (hni : w1.nItems = w.nItems)
    (hnw : w1.nWatchers = w.nWatchers)
    (hw : ∀ g, (w1.watchers g).key = (w.watchers g).key ∧ (w1.watchers g).i = (w.watchers g).i ∧
      ((w1.watchers g).pc = PC.done ↔ (w.watchers g).pc = PC.done))
    (hnt : w.nTimers ≤ w1.nTimers)
    (ht : ∀ p, (w1.heap p).Timer = (w.heap p).Timer ∨
      (p = i ∧ w.nTimers ≤ (w1.heap p).Timer ∧ (w1.heap p).Timer < w1.nTimers)) :
    w1.Inv := by
  constructor
  · intro k p hk; rw [hl] at hk; rw [hni]; exact h.item_lt k p hk
  · intro k p hk
    rw [hl] at hk
    have := h.timer_lt k p hk
    rcases ht p with h1 | ⟨_, _, h3⟩
    · rw [h1]; omega
    · exact h3
  · intro k1 k2 i1 i2 h1 h2 he
    rw [hl] at h1 h2
    have l1 := h.timer_lt k1 i1 h1
    have l2 := h.timer_lt k2 i2 h2
    rcases ht i1 with e1 | ⟨e1, e1a, e1b⟩ <;> rcases ht i2 with e2 | ⟨e2, e2a, e2b⟩
    · exact h.timer_inj k1 k2 i1 i2 h1 h2 (by rw [← e1, ← e2, he])
    · omega
    · omega
    · subst e1; subst e2; exact h.item_inj k1 k2 _ h1 h2
  · intro g hg hpc
    rw [hnw] at hg
    have := h.watcher_key g hg (fun hd => hpc ((hw g).2.2.2 hd))
    rw [hl, (hw g).1, (hw g).2.1]; exact this
  · intro g1 g2 hg1 hg2 hp1 hp2 hk
    rw [hnw] at hg1 hg2
    exact h.watcher_inj g1 g2 hg1 hg2 (fun hd => hp1 ((hw g1).2.2.2 hd))
      (fun hd => hp2 ((hw g2).2.2.2 hd)) (by rw [← (hw g1).1, ← (hw g2).1, hk])
  · intro k p hk
    rw [hl] at hk
    obtain ⟨g, hg, hpc, hkey⟩ := h.key_watched k p hk
    exact ⟨g, by rw [hnw]; exact hg, fun hd => hpc ((hw g).2.2.1 hd), by rw [(hw g).1, hkey]⟩

theorem lookup_Add_present (w : World V) (key : String) (value : Option V) (i : Nat)
    (hk : w.lookup key = some i) (k : String) : (Add key value w).lookup k = w.lookup k := by
  by_cases h : k = key
  · subst h; rw [lookup_Add_self, hk]; rfl
  · exact lookup_Add_other w key value k h

/-- What `Add` of a present key leaves alone. -/
theorem Add_present_frame (w : World V) (key : String) (value : Option V) (i : Nat)
    (hk : w.lookup key = some i) :
    (Add key value w).nItems = w.nItems ∧ (Add key value w).watchers = w.watchers ∧
      (Add key value w).nWatchers = w.nWatchers ∧ (Add key value w).now = w.now ∧
      w.nTimers ≤ (Add key value w).nTimers ∧
      (∀ p, p ≠ i → (Add key value w).heap p = w.heap p) ∧
      (∀ t, t ≠ (w.heap i).Timer → t < w.nTimers →
        (Add key value w).timers t = w.timers t) ∧
      (((Add key value w).heap i).Timer = (w.heap i).Timer ∨
        (w.nTimers ≤ ((Add key value w).heap i).Timer ∧
          ((Add key value w).heap i).Timer < (Add key value w).nTimers)) := by
  rw [Add_present w key value i hk]
  cases w.cache.ResetOnAdd
  · simp only [Bool.false_eq_true, if_false]
    refine ⟨rfl, rfl, rfl, rfl, le_refl _, ?_, fun _ _ _ => rfl, Or.inl ?_⟩
    · intro p hp; simp [World.store, World.setValue, Function.update_noteq hp]
    · simp [World.store, World.setValue]
  · simp only [if_true]
    cases hact : ((w.setValue i value).timers ((w.setValue i value).heap i).Timer).active
    · rw [reset_fired _ i hact]
      refine ⟨rfl, rfl, rfl, rfl, ?_, ?_, ?_, Or.inr ?_⟩
      · simp [World.store, World.setValue]
      · intro p hp; simp [World.store, World.setValue, Function.update_noteq hp]
      · intro t ht1 ht2
        have ht3 : t ≠ w.nTimers := by omega
        simp [World.store, World.setValue, Function.update_noteq ht3, Function.update_noteq ht1]
      · simp [World.store, World.setValue]
    · rw [reset_armed _ i hact]
      refine ⟨rfl, rfl, rfl, rfl, le_refl _, ?_, ?_, Or.inl ?_⟩
      · intro p hp; simp [World.store, World.setValue, Function.update_noteq hp]
      · intro t ht1 _
        simp [World.store, World.setValue, Function.update_noteq ht1]
      · simp [World.store, World.setValue]

/-- What `Add` of an absent key builds. -/
theorem Add_absent_frame (w : World V) (key : String) (value : Option V)
    (hk : w.lookup key = none) :
    (∀ k, (Add key value w).lookup k = if k = key then some w.nItems else w.lookup k) ∧
      (Add key value w).heap = Function.update w.heap w.nItems
        { Start := w.now, Timer := w.nTimers, Duration := w.cache.Duration, Value := value } ∧
      (Add key value w).nItems = w.nItems + 1 ∧
      (Add key value w).timers =
        Function.update w.timers w.nTimers (NewTimer w.now w.cache.Duration) ∧
      (Add key value w).nTimers = w.nTimers + 1 ∧
      (Add key value w).watchers = Function.update w.watchers w.nWatchers
        { i := w.nItems, key := key, pc := PC.spawned } ∧
      (Add key value w).nWatchers = w.nWatchers + 1 ∧
      (Add key value w).now = w.now := by
  rw [Add_absent w key value hk]
  refine ⟨fun k => ?_, rfl, rfl, rfl, rfl, rfl, rfl, rfl⟩
  rw [lookup_store, lookup_create]

theorem Inv_Add_present (w : World V) (h : w.Inv) (key : String) (value : Option V) (i : Nat)
    (hk : w.lookup key = some i) : (Add key value w).Inv := by
  obtain ⟨h1, h2, h3, _, h5, h6, _, h8⟩ := Add_present_frame w key value i hk
  refine Inv_frame h i (lookup_Add_present w key value i hk) h1 h3 ?_ h5 ?_
  · intro g; rw [h2]; exact ⟨rfl, rfl, Iff.rfl⟩
  · intro p
    by_cases hp : p = i
    · subst hp
      rcases h8 with h8 | h8
      · exact Or.inl h8
      · exact Or.inr ⟨rfl, h8⟩
    · rw [h6 p hp]; exact Or.inl rfl

theorem Inv_Add_absent (w : World V) (h : w.Inv) (key : String) (value : Option V)
    (hk : w.lookup key = none) : (Add key value w).Inv := by
  obtain ⟨hl, hh, hni, _, hnt, hw, hnw, _⟩ := Add_absent_frame w key value hk
  have old_item : ∀ k p, w.lookup k = some p → (Add key value w).heap p = w.heap p := by
    intro k p hp
    have := h.item_lt k p hp
    rw [hh, Function.update_noteq (by omega)]
  have old_watcher : ∀ g, g < w.nWatchers → (Add key value w).watchers g = w.watchers g := by
    intro g hg
    rw [hw, Function.update_noteq (by omega)]
  have new_watcher : (Add key value w).watchers w.nWatchers =
      { i := w.nItems, key := key, pc := PC.spawned } := by
    rw [hw, Function.update_same]
  have new_item : ((Add key value w).heap w.nItems).Timer = w.nTimers := by
    rw [hh, Function.update_same]
  have live_ne : ∀ g, g < w.nWatchers → (w.watchers g).pc ≠ PC.done →
      (w.watchers g).key ≠ key := by
    intro g hg hpc he
    have := h.watcher_key g hg hpc
    rw [he, hk] at this
    cases this
  constructor
  · intro k p hp
    rw [hl] at hp
    rw [hni]
    split_ifs at hp with hkk
    · cases hp; omega
    · have := h.item_lt k p hp; omega
  · intro k p hp
    rw [hl] at hp
    rw [hnt]
    split_ifs at hp with hkk
    · cases hp; rw [new_item]; omega
    · rw [old_item k p hp]; have := h.timer_lt k p hp; omega
  · intro k1 k2 i1 i2 h1 h2 he
    rw [hl] at h1 h2
    split_ifs at h1 with hk1 <;> split_ifs at h2 with hk2
    · rw [hk1, hk2]
    · cases h1
      rw [new_item, old_item k2 i2 h2] at he
      have := h.timer_lt k2 i2 h2
      omega
    · cases h2
      rw [new_item, old_item k1 i1 h1] at he
      have := h.timer_lt k1 i1 h1
      omega
    · rw [old_item k1 i1 h1, old_item k2 i2 h2] at he
      exact h.timer_inj k1 k2 i1 i2 h1 h2 he
  · intro g hg hpc
    rw [hnw] at hg
    by_cases hgn : g = w.nWatchers
    · subst hgn
      rw [new_watcher, hl]
      simp
    · have hg1 : g < w.nWatchers := by omega
      rw [old_watcher g hg1] at hpc ⊢
      rw [hl, if_neg (live_ne g hg1 hpc)]
      exact h.watcher_key g hg1 hpc
  · intro g1 g2 hg1 hg2 hp1 hp2 he
    rw [hnw] at hg1 hg2
    by_cases hn1 : g1 = w.nWatchers <;> by_cases hn2 : g2 = w.nWatchers
    · rw [hn1, hn2]
    · have hl2 : g2 < w.nWatchers := by omega
      rw [hn1, new_watcher, old_watcher g2 hl2] at he
      rw [old_watcher g2 hl2] at hp2
      exact absurd he.symm (live_ne g2 hl2 hp2)
    · have hl1 : g1 < w.nWatchers := by omega
      rw [hn2, new_watcher, old_watcher g1 hl1] at he
      rw [old_watcher g1 hl1] at hp1
      exact absurd he (live_ne g1 hl1 hp1)
    · have hl1 : g1 < w.nWatchers := by omega
      have hl2 : g2 < w.nWatchers := by omega
      rw [old_watcher g1 hl1] at hp1 he
      rw [old_watcher g2 hl2] at hp2 he
      exact h.watcher_inj g1 g2 hl1 hl2 hp1 hp2 he
  · intro k p hp
    rw [hl] at hp
    split_ifs at hp with hkk
    · refine ⟨w.nWatchers, by omega, ?_, ?_⟩
      · rw [new_watcher]; simp
      · rw [new_watcher, hkk]
    · obtain ⟨g, hg, hpc, hkey⟩ := h.key_watched k p hp
      refine ⟨g, by omega, ?_, ?_⟩
      · rw [old_watcher g hg]; exact hpc
      · rw [old_watcher g hg]; exact hkey

theorem Inv_Add (w : World V) (h : w.Inv) (key : String) (value : Option V) :
    (Add key value w).Inv := by
  cases hk : w.lookup key with
  | none => exact Inv_Add_absent w h key value hk
  | some i => exact Inv_Add_present w h key value i hk

theorem remove_eq (w w1 : World V) (g : Nat) (h : w.remove g = some w1) :
    g < w.nWatchers ∧ (w.watchers g).pc = PC.locking ∧
      w1 = { w with
        cache := { w.cache with items := w.cache.items.erase (w.watchers g).key }
        watchers := Function.update w.watchers g { w.watchers g with pc := PC.done } } := by
  unfold World.remove at h
  split_ifs at h with hg
  cases h
  exact ⟨hg.1, hg.2, rfl⟩

theorem lookup_remove (w w1 : World V) (g : Nat) (h : w.remove g = some w1) (k : String) :
    w1.lookup k = if k = (w.watchers g).key then none else w.lookup k := by
  obtain ⟨_, _, he⟩ := remove_eq w w1 g h
  subst he
  unfold World.lookup
  split_ifs with hk
  · subst hk; simp
  · simp [AList.lookup_erase_ne hk]

theorem Inv_remove (w w1 : World V) (h : w.Inv) (g : Nat) (hs : w.remove g = some w1) :
    w1.Inv := by
  have hl := lookup_remove w w1 g hs
  obtain ⟨hg, hpc, he⟩ := remove_eq w w1 g hs
  have hheap : w1.heap = w.heap := by rw [he]
  have hni : w1.nItems = w.nItems := by rw [he]
  have hnt : w1.nTimers = w.nTimers := by rw [he]
  have hnw : w1.nWatchers = w.nWatchers := by rw [he]
  have hwg : w1.watchers g = { w.watchers g with pc := PC.done } := by
    rw [he]; simp
  have hwo : ∀ g1, g1 ≠ g → w1.watchers g1 = w.watchers g1 := by
    intro g1 hne; rw [he]; simp [Function.update_noteq hne]
  have hlive : (w.watchers g).pc ≠ PC.done := by rw [hpc]; simp
  have sub : ∀ k p, w1.lookup k = some p → w.lookup k = some p ∧ k ≠ (w.watchers g).key := by
    intro k p hp
    rw [hl] at hp
    split_ifs at hp with hk
    exact ⟨hp, hk⟩
  constructor
  · intro k p hp; rw [hni]; exact h.item_lt k p (sub k p hp).1
  · intro k p hp; rw [hnt, hheap]; exact h.timer_lt k p (sub k p hp).1
  · intro k1 k2 i1 i2 h1 h2 heq
    rw [hheap] at heq
    exact h.timer_inj k1 k2 i1 i2 (sub k1 i1 h1).1 (sub k2 i2 h2).1 heq
  · intro g1 hg1 hp1
    rw [hnw] at hg1
    by_cases hgg : g1 = g
    · subst hgg; rw [hwg] at hp1; simp at hp1
    · rw [hwo g1 hgg] at hp1 ⊢
      have hne : (w.watchers g1).key ≠ (w.watchers g).key := by
        intro hk
        exact hgg (h.watcher_inj g1 g hg1 hg hp1 hlive hk)
      rw [hl, if_neg hne]
      exact h.watcher_key g1 hg1 hp1
  · intro g1 g2 hg1 hg2 hp1 hp2 hk
    rw [hnw] at hg1 hg2
    have n1 : g1 ≠ g := by intro hgg; subst hgg; rw [hwg] at hp1; simp at hp1
    have n2 : g2 ≠ g := by intro hgg; subst hgg; rw [hwg] at hp2; simp at hp2
    rw [hwo g1 n1] at hp1 hk
    rw [hwo g2 n2] at hp2 hk
    exact h.watcher_inj g1 g2 hg1 hg2 hp1 hp2 hk
  · intro k p hp
    obtain ⟨hp1, hkne⟩ := sub k p hp
    obtain ⟨g1, hg1, hpc1, hkey1⟩ := h.key_watched k p hp1
    have hne : g1 ≠ g := by
      intro hgg; subst hgg; exact hkne hkey1.symm
    exact ⟨g1, by rw [hnw]; exact hg1, by rw [hwo g1 hne]; exact hpc1,
      by rw [hwo g1 hne]; exact hkey1⟩

theorem Inv_step (w w1 : World V) (h : w.Inv) (a : Action V) (hs : step w a = some w1) :
    w1.Inv := by
  cases a with
  | add key value => simp only [step, Option.some.injEq] at hs; subst hs; exact Inv_Add w h key value
  | get key => simp only [step, Get_state, Option.some.injEq] at hs; subst hs; exact h
  | ttl key => simp only [step, TTL_state, Option.some.injEq] at hs; subst hs; exact h
  | len => simp only [step, Len, Option.some.injEq] at hs; subst hs; exact h
  | setDuration d =>
    simp only [step, Option.some.injEq] at hs; subst hs
    exact Inv_frame h 0 (fun _ => rfl) rfl rfl (fun _ => ⟨rfl, rfl, Iff.rfl⟩) (le_refl _)
      (fun _ => Or.inl rfl)
  | setResetOnAdd b =>
    simp only [step, Option.some.injEq] at hs; subst hs
    exact Inv_frame h 0 (fun _ => rfl) rfl rfl (fun _ => ⟨rfl, rfl, Iff.rfl⟩) (le_refl _)
      (fun _ => Or.inl rfl)
  | tick dt =>
    simp only [step, Option.some.injEq] at hs; subst hs
    exact Inv_frame h 0 (fun _ => rfl) rfl rfl (fun _ => ⟨rfl, rfl, Iff.rfl⟩) (le_refl _)
      (fun _ => Or.inl rfl)
  | fire t =>
    simp only [step, World.fire] at hs
    split_ifs at hs
    cases hs
    exact Inv_frame h 0 (fun _ => rfl) rfl rfl (fun _ => ⟨rfl, rfl, Iff.rfl⟩) (le_refl _)
      (fun _ => Or.inl rfl)
  | start g =>
    simp only [step, World.start] at hs
    split_ifs at hs with hg
    cases hs
    refine Inv_frame h 0 (fun _ => rfl) rfl rfl (fun g1 => ?_) (le_refl _) (fun _ => Or.inl rfl)
    by_cases hgg : g1 = g
    · subst hgg; simp [hg.2]
    · simp [Function.update_noteq hgg]
  | recv g =>
    simp only [step, World.recv] at hs
    split_ifs at hs with hg
    split at hs
    · rename_i t hpc
      split_ifs at hs
      cases hs
      refine Inv_frame h 0 (fun _ => rfl) rfl rfl (fun g1 => ?_) (le_refl _)
        (fun _ => Or.inl rfl)
      by_cases hgg : g1 = g
      · subst hgg; simp [hpc]
      · simp [Function.update_noteq hgg]
    · cases hs
  | remove g => exact Inv_remove w w1 h g hs

theorem Inv_run (as : List (Action V)) (w w1 : World V) (h : w.Inv) (hr : run w as = some w1) :
    w1.Inv := by
  induction as generalizing w with
  | nil => simp only [run, Option.some.injEq] at hr; subst hr; exact h
  | cons a as ih =>
    simp only [run] at hr
    cases hs : step w a with
    | none => rw [hs] at hr; cases hr
    | some w2 =>
      rw [hs] at hr
      exact ih w2 (Inv_step w w2 h a hs) hr

theorem Reachable.Inv {w : World V} (h : Reachable w) : w.Inv := by
  obtain ⟨d, t0, as, hr⟩ := h
  exact Inv_run as _ w (Inv_boot (New d) rfl t0) hr

/-! ## Expiry: a guarded key stays until its deadline -/

theorem step_now_le (w w1 : World V) (a : Action V) (hs : step w a = some w1) :
    w.now ≤ w1.now := by
  cases a with
  | add key value =>
    simp only [step, Option.some.injEq] at hs; subst hs
    cases hk : w.lookup key with
    | none => rw [(Add_absent_frame w key value hk).2.2.2.2.2.2.2]
    | some i => rw [(Add_present_frame w key value i hk).2.2.2.1]
  | get key => simp only [step, Get_state, Option.some.injEq] at hs; subst hs; exact le_refl _
  | ttl key => simp only [step, TTL_state, Option.some.injEq] at hs; subst hs; exact le_refl _
  | len => simp only [step, Len, Option.some.injEq] at hs; subst hs; exact le_refl _
  | setDuration d => simp only [step, Option.some.injEq] at hs; subst hs; exact le_refl _
  | setResetOnAdd b => simp only [step, Option.some.injEq] at hs; subst hs; exact le_refl _
  | tick dt =>
    simp only [step, Option.some.injEq] at hs; subst hs
    simp [World.tick]
  | fire t =>
    simp only [step, World.fire] at hs
    split_ifs at hs
    cases hs; exact le_refl _
  | start g =>
    simp only [step, World.start] at hs
    split_ifs at hs
    cases hs; exact le_refl _
  | recv g =>
    simp only [step, World.recv] at hs
    split_ifs at hs
    split at hs
    · split_ifs at hs
      cases hs; exact le_refl _
    · cases hs
  | remove g =>
    obtain ⟨_, _, he⟩ := remove_eq w w1 g hs
    rw [he]

theorem isAdd_add (key k : String) (value : Option V)
    (h : Action.isAdd key (Action.add k value) = false) : key ≠ k := by
  intro he
  simp [Action.isAdd, he] at h

/-- One step that is not an `Add` of the key keeps the guard, unless the deadline is reached. -/
theorem armed_step (w w1 : World V) (h : w.Inv) (key : String) (g : Nat) (T : Int)
    (ha : w.armedUntil key g T) (a : Action V) (hna : Action.isAdd key a = false)
    (hs : step w a = some w1) : w1.armedUntil key g T ∨ T ≤ w1.now := by
  obtain ⟨i, hl, hact, hC, hdl, hg, hkey, hpc⟩ := ha
  have hlive : (w.watchers g).pc ≠ PC.done := by
    rcases hpc with hp | hp <;> rw [hp] <;> simp
  have hgi : (w.watchers g).i = i := by
    have := h.watcher_key g hg hlive
    rw [hkey, hl] at this
    exact (Option.some.inj this).symm
  cases a with
  | add k value =>
    have hne := isAdd_add key k value hna
    simp only [step, Option.some.injEq] at hs; subst hs
    left
    cases hk : w.lookup k with
    | none =>
      obtain ⟨fl, fh, _, ft, _, fw, fnw, _⟩ := Add_absent_frame w k value hk
      have hi := h.item_lt key i hl
      have ht := h.timer_lt key i hl
      have e1 : (Add k value w).heap i = w.heap i := by
        rw [fh, Function.update_noteq (by omega)]
      have e2 : (Add k value w).timers (w.heap i).Timer = w.timers (w.heap i).Timer := by
        rw [ft, Function.update_noteq (by omega)]
      have e3 : (Add k value w).watchers g = w.watchers g := by
        rw [fw, Function.update_noteq (by omega)]
      refine ⟨i, by rw [fl, if_neg hne]; exact hl, ?_, ?_, ?_, by omega, ?_, ?_⟩
      · rw [e1, e2]; exact hact
      · rw [e1, e2]; exact hC
      · rw [e1, e2]; exact hdl
      · rw [e3]; exact hkey
      · rw [e1, e3]; exact hpc
    | some j =>
      obtain ⟨_, fw, fnw, _, _, fh, ft, _⟩ := Add_present_frame w k value j hk
      have hij : i ≠ j := by
        intro he; subst he; exact hne (h.item_inj key k i hl hk)
      have htt : (w.heap i).Timer ≠ (w.heap j).Timer := by
        intro he; exact hne (h.timer_inj key k i j hl hk he)
      have e1 : (Add k value w).heap i = w.heap i := fh i hij
      have e2 : (Add k value w).timers (w.heap i).Timer = w.timers (w.heap i).Timer :=
        ft _ htt (h.timer_lt key i hl)
      refine ⟨i, by rw [lookup_Add_present w k value j hk]; exact hl, ?_, ?_, ?_,
        by rw [fnw]; exact hg, ?_, ?_⟩
      · rw [e1, e2]; exact hact
      · rw [e1, e2]; exact hC
      · rw [e1, e2]; exact hdl
      · rw [fw]; exact hkey
      · rw [e1, fw]; exact hpc
  | get k =>
    simp only [step, Get_state, Option.some.injEq] at hs; subst hs
    exact Or.inl ⟨i, hl, hact, hC, hdl, hg, hkey, hpc⟩
  | ttl k =>
    simp only [step, TTL_state, Option.some.injEq] at hs; subst hs
    exact Or.inl ⟨i, hl, hact, hC, hdl, hg, hkey, hpc⟩
  | len =>
    simp only [step, Len, Option.some.injEq] at hs; subst hs
    exact Or.inl ⟨i, hl, hact, hC, hdl, hg, hkey, hpc⟩
  | setDuration d =>
    simp only [step, Option.some.injEq] at hs; subst hs
    exact Or.inl ⟨i, hl, hact, hC, hdl, hg, hkey, hpc⟩
  | setResetOnAdd b =>
    simp only [step, Option.some.injEq] at hs; subst hs
    exact Or.inl ⟨i, hl, hact, hC, hdl, hg, hkey, hpc⟩
  | tick dt =>
    simp only [step, Option.some.injEq] at hs; subst hs
    exact Or.inl ⟨i, hl, hact, hC, hdl, hg, hkey, hpc⟩
  | fire t =>
    simp only [step, World.fire] at hs
    split_ifs at hs with hf
    cases hs
    by_cases ht : t = (w.heap i).Timer
    · right
      rw [ht, hdl] at hf
      exact hf.2.2
    · left
      have e2 : Function.update w.timers t (w.timers t).fire (w.heap i).Timer
          = w.timers (w.heap i).Timer := Function.update_noteq (Ne.symm ht) _ _
      exact ⟨i, hl, by simp only [e2]; exact hact, by simp only [e2]; exact hC,
        by simp only [e2]; exact hdl, hg, hkey, hpc⟩
  | start g1 =>
    simp only [step, World.start] at hs
    split_ifs at hs with hf
    cases hs
    left
    by_cases hgg : g1 = g
    · subst hgg
      refine ⟨i, hl, hact, hC, hdl, hg, ?_, Or.inr ?_⟩
      · simp [hkey]
      · simp [hgi]
    · refine ⟨i, hl, hact, hC, hdl, hg, ?_, ?_⟩
      · simp only [Function.update_noteq (Ne.symm hgg)]; exact hkey
      · simp only [Function.update_noteq (Ne.symm hgg)]; exact hpc
  | recv g1 =>
    simp only [step, World.recv] at hs
    split_ifs at hs with hf
    split at hs
    · rename_i t hp1
      split_ifs at hs with hc
      cases hs
      left
      have ht : t ≠ (w.heap i).Timer := by
        intro he; rw [he, hC] at hc; cases hc
      have hgg : g1 ≠ g := by
        intro he; subst he
        rcases hpc with hp | hp
        · rw [hp] at hp1; cases hp1
        · rw [hp] at hp1; cases hp1; exact ht rfl
      have e2 : Function.update w.timers t { w.timers t with C := false } (w.heap i).Timer
          = w.timers (w.heap i).Timer := Function.update_noteq (Ne.symm ht) _ _
      refine ⟨i, hl, by simp only [e2]; exact hact, by simp only [e2]; exact hC,
        by simp only [e2]; exact hdl, hg, ?_, ?_⟩
      · simp only [Function.update_noteq (Ne.symm hgg)]; exact hkey
      · simp only [Function.update_noteq (Ne.symm hgg)]; exact hpc
    · cases hs
  | remove g1 =>
    have hlk := lookup_remove w w1 g1 hs
    obtain ⟨hg1, hp1, he⟩ := remove_eq w w1 g1 hs
    have hgg : g1 ≠ g := by
      intro heq; subst heq
      rcases hpc with hp | hp <;> rw [hp] at hp1 <;> cases hp1
    have hkk : key ≠ (w.watchers g1).key := by
      intro heq
      apply hgg
      exact h.watcher_inj g1 g hg1 hg (by rw [hp1]; simp) hlive (by rw [hkey, heq])
    left
    refine ⟨i, by rw [hlk, if_neg hkk]; exact hl, ?_, ?_, ?_, ?_, ?_, ?_⟩
    · rw [he]; exact hact
    · rw [he]; exact hC
    · rw [he]; exact hdl
    · rw [he]; exact hg
    · rw [he]; simp only [Function.update_noteq (Ne.symm hgg)]; exact hkey
    · rw [he]; simp only [Function.update_noteq (Ne.symm hgg)]; exact hpc

theorem armed_run (as : List (Action V)) (w w1 : World V) (h : w.Inv) (key : String) (g : Nat)
    (T : Int) (ha : w.armedUntil key g T ∨ T ≤ w.now)
    (hna : ∀ a ∈ as, Action.isAdd key a = false) (hr : run w as = some w1) :
    w1.armedUntil key g T ∨ T ≤ w1.now := by
  induction as generalizing w with
  | nil => simp only [run, Option.some.injEq] at hr; subst hr; exact ha
  | cons a as ih =>
    simp only [run] at hr
    cases hs : step w a with
    | none => rw [hs] at hr; cases hr
    | some w2 =>
      rw [hs] at hr
      refine ih w2 (Inv_step w w2 h a hs) ?_ (fun b hb => hna b (List.mem_cons_of_mem a hb)) hr
      rcases ha with ha | ha
      · exact armed_step w w2 h key g T ha a (hna a (List.mem_cons_self a as)) hs
      · exact Or.inr (le_trans ha (step_now_le w w2 a hs))

theorem armed_Add_absent (w : World V) (key : String) (value : Option V)
    (hk : w.lookup key = none) :
    (Add key value w).armedUntil key w.nWatchers (w.now + w.cache.Duration) := by
  obtain ⟨fl, fh, _, ft, _, fw, fnw, _⟩ := Add_absent_frame w key value hk
  refine ⟨w.nItems, by rw [fl]; simp, ?_, ?_, ?_, by omega, ?_, Or.inl ?_⟩
  · rw [fh, Function.update_same, ft, Function.update_same]; rfl
  · rw [fh, Function.update_same, ft, Function.update_same]; rfl
  · rw [fh, Function.update_same, ft, Function.update_same]; rfl
  · rw [fw]; simp
  · rw [fw]; simp

theorem run_append (as bs : List (Action V)) (w : World V) :
    run w (as ++ bs) = (run w as).bind fun w1 => run w1 bs := by
  induction as generalizing w with
  | nil => rfl
  | cons a as ih =>
    simp only [List.cons_append, run]
    cases step w a with
    | none => rfl
    | some w2 => exact ih w2

/-- A step that is not an `Add` of the key does not put the key into the map. -/
theorem absent_step (w w1 : World V) (key : String) (hk : w.lookup key = none) (a : Action V)
    (hna : Action.isAdd key a = false) (hs : step w a = some w1) : w1.lookup key = none := by
  cases a with
  | add k value =>
    have hne := isAdd_add key k value hna
    simp only [step, Option.some.injEq] at hs; subst hs
    rw [lookup_Add_other w k value key hne]; exact hk
  | get k => simp only [step, Get_state, Option.some.injEq] at hs; subst hs; exact hk
  | ttl k => simp only [step, TTL_state, Option.some.injEq] at hs; subst hs; exact hk
  | len => simp only [step, Len, Option.some.injEq] at hs; subst hs; exact hk
  | setDuration d => simp only [step, Option.some.injEq] at hs; subst hs; exact hk
  | setResetOnAdd b => simp only [step, Option.some.injEq] at hs; subst hs; exact hk
  | tick dt => simp only [step, Option.some.injEq] at hs; subst hs; exact hk
  | fire t =>
    simp only [step, World.fire] at hs
    split_ifs at hs
    cases hs; exact hk
  | start g =>
    simp only [step, World.start] at hs
    split_ifs at hs
    cases hs; exact hk
  | recv g =>
    simp only [step, World.recv] at hs
    split_ifs at hs
    split at hs
    · split_ifs at hs
      cases hs; exact hk
    · cases hs
  | remove g =>
    rw [lookup_remove w w1 g hs]
    split_ifs
    · rfl
    · exact hk

theorem absent_run (as : List (Action V)) (w w1 : World V) (key : String)
    (hk : w.lookup key = none) (hna : ∀ a ∈ as, Action.isAdd key a = false)
    (hr : run w as = some w1) : w1.lookup key = none := by
  induction as generalizing w with
  | nil => simp only [run, Option.some.injEq] at hr; subst hr; exact hk
  | cons a as ih =>
    simp only [run] at hr
    cases hs : step w a with
    | none => rw [hs] at hr; cases hr
    | some w2 =>
      rw [hs] at hr
      exact ih w2 (absent_step w w2 key hk a (hna a (List.mem_cons_self a as)) hs)
        (fun b hb => hna b (List.mem_cons_of_mem a hb)) hr

/-- A goroutine keeps its captured key. -/
theorem watcher_stable_step (w w1 : World V) (g : Nat) (hg : g < w.nWatchers) (a : Action V)
    (hs : step w a = some w1) :
    g < w1.nWatchers ∧ (w1.watchers g).key = (w.watchers g).key := by
  cases a with
  | add k value =>
    simp only [step, Option.some.injEq] at hs; subst hs
    cases hk : w.lookup k with
    | none =>
      obtain ⟨_, _, _, _, _, fw, fnw, _⟩ := Add_absent_frame w k value hk
      rw [fw, fnw, Function.update_noteq (by omega)]
      exact ⟨by omega, rfl⟩
    | some i =>
      obtain ⟨_, fw, fnw, _⟩ := Add_present_frame w k value i hk
      rw [fw, fnw]; exact ⟨hg, rfl⟩
  | get k => simp only [step, Get_state, Option.some.injEq] at hs; subst hs; exact ⟨hg, rfl⟩
  | ttl k => simp only [step, TTL_state, Option.some.injEq] at hs; subst hs; exact ⟨hg, rfl⟩
  | len => simp only [step, Len, Option.some.injEq] at hs; subst hs; exact ⟨hg, rfl⟩
  | setDuration d => simp only [step, Option.some.injEq] at hs; subst hs; exact ⟨hg, rfl⟩
  | setResetOnAdd b => simp only [step, Option.some.injEq] at hs; subst hs; exact ⟨hg, rfl⟩
  | tick dt => simp only [step, Option.some.injEq] at hs; subst hs; exact ⟨hg, rfl⟩
  | fire t =>
    simp only [step, World.fire] at hs
    split_ifs at hs
    cases hs; exact ⟨hg, rfl⟩
  | start g1 =>
    simp only [step, World.start] at hs
    split_ifs at hs
    cases hs
    refine ⟨hg, ?_⟩
    by_cases hgg : g = g1
    · subst hgg; simp
    · simp [Function.update_noteq hgg]
  | recv g1 =>
    simp only [step, World.recv] at hs
    split_ifs at hs
    split at hs
    · split_ifs at hs
      cases hs
      refine ⟨hg, ?_⟩
      by_cases hgg : g = g1
      · subst hgg; simp
      · simp [Function.update_noteq hgg]
    · cases hs
  | remove g1 =>
    obtain ⟨_, _, he⟩ := remove_eq w w1 g1 hs
    rw [he]
    refine ⟨hg, ?_⟩
    by_cases hgg : g = g1
    · subst hgg; simp
    · simp [Function.update_noteq hgg]

theorem watcher_stable_run (as : List (Action V)) (w w1 : World V) (g : Nat)
    (hg : g < w.nWatchers) (hr : run w as = some w1) :
    g < w1.nWatchers ∧ (w1.watchers g).key = (w.watchers g).key := by
  induction as generalizing w with
  | nil => simp only [run, Option.some.injEq] at hr; subst hr; exact ⟨hg, rfl⟩
  | cons a as ih =>
    simp only [run] at hr
    cases hs : step w a with
    | none => rw [hs] at hr; cases hr
    | some w2 =>
      rw [hs] at hr
      obtain ⟨h1, h2⟩ := watcher_stable_step w w2 g hg a hs
      obtain ⟨h3, h4⟩ := ih w2 h1 hr
      exact ⟨h3, h4.trans h2⟩

/-- Claim C5: a key added (while absent) at instant `t0` under cache duration `D` and not added
again is found by `Get` at every instant strictly before `t0 + D`, and until then neither the
firing of its timer nor the removal step of its goroutine is enabled; once that removal step has
run the key is not found, at any later point of the execution. -/
theorem expiry_after_Duration (w : World V) (hw : Reachable w) (k : String) (v : Option V)
    (habs : w.lookup k = none) :
    (∀ as w2, (∀ a ∈ as, Action.isAdd k a = false) → run (Add k v w) as = some w2 →
        w2.now < w.now + w.cache.Duration →
        (Get k w2).1.2 = true ∧ step w2 (Action.remove w.nWatchers) = none ∧
        ∀ i, w2.lookup k = some i → step w2 (Action.fire (w2.heap i).Timer) = none) ∧
      (∀ pre post w3, (∀ a ∈ pre, Action.isAdd k a = false) →
        (∀ a ∈ post, Action.isAdd k a = false) →
        run (Add k v w) (pre ++ Action.remove w.nWatchers :: post) = some w3 →
        (Get k w3).1 = (none, false)) := by
  have hinv : (Add k v w).Inv := Inv_Add w hw.Inv k v
  have harm := armed_Add_absent w k v habs
  constructor
  · intro as w2 hna hr hlt
    rcases armed_run as _ w2 hinv k _ _ (Or.inl harm) hna hr with ha | ha
    · obtain ⟨i, hl, _, _, hdl, hg, _, hpc⟩ := ha
      refine ⟨?_, ?_, ?_⟩
      · rw [Get_eq, hl]
      · simp only [step, World.remove]
        rw [if_neg]
        rintro ⟨_, hp⟩
        rcases hpc with hq | hq <;> rw [hq] at hp <;> cases hp
      · intro j hj
        rw [hl] at hj
        cases hj
        simp only [step, World.fire]
        rw [if_neg]
        rintro ⟨_, _, hd⟩
        rw [hdl] at hd
        omega
    · omega
  · intro pre post w3 hpre hpost hr
    rw [run_append] at hr
    cases hr1 : run (Add k v w) pre with
    | none => rw [hr1] at hr; cases hr
    | some w1 =>
      rw [hr1] at hr
      simp only [Option.some_bind, run] at hr
      cases hr2 : step w1 (Action.remove w.nWatchers) with
      | none => rw [hr2] at hr; cases hr
      | some w2 =>
        rw [hr2] at hr
        simp only [Option.some_bind] at hr
        have hg0 : w.nWatchers < (Add k v w).nWatchers := by
          rw [(Add_absent_frame w k v habs).2.2.2.2.2.2.1]; omega
        have hkey0 : ((Add k v w).watchers w.nWatchers).key = k := by
          rw [(Add_absent_frame w k v habs).2.2.2.2.2.1]; simp
        have hkey1 := (watcher_stable_run pre _ w1 _ hg0 hr1).2
        rw [hkey0] at hkey1
        have hl2 : w2.lookup k = none := by
          rw [lookup_remove w1 w2 _ hr2, hkey1]; simp
        have hl3 := absent_run post w2 w3 k hl2 hpost hr
        rw [Get_eq, hl3]

/-- Witness for claim C5: `New(1s)`, `Add("item")` at 0s: `Get` finds the key at 0s; after the timer
has fired and the goroutine has removed the key, `Get` at 2s does not find it. -/
theorem expiry_after_Duration_witness :
    (Get "item" (Add "item" (some "1") (World.boot (New Second) 0 : World String))).1.2 = true ∧
      ∃ w3, run (Add "item" (some "1") (World.boot (New Second) 0 : World String))
          ([Action.start 0, Action.tick 1000000000, Action.fire 0, Action.recv 0] ++
            Action.remove 0 :: [Action.tick 1000000000]) = some w3 ∧
        w3.now = 2 * Second ∧ (Get "item" w3).1 = (none, false) := by
  have h := expiry_after_Duration (World.boot (New Second) 0 : World String)
    ⟨Second, 0, [], rfl⟩ "item" (some "1") (by decide)
  refine ⟨(h.1 [] _ (by simp) rfl (by decide)).1, ?_⟩
  have hsome : (run (Add "item" (some "1") (World.boot (New Second) 0 : World String))
      ([Action.start 0, Action.tick 1000000000, Action.fire 0, Action.recv 0] ++
        Action.remove 0 :: [Action.tick 1000000000])).isSome = true := by decide
  obtain ⟨w3, hw3⟩ := Option.isSome_iff_exists.mp hsome
  refine ⟨w3, hw3, ?_, h.2 _ _ w3 (by decide) (by decide) hw3⟩
  have hnow : (run (Add "item" (some "1") (World.boot (New Second) 0 : World String))
      ([Action.start 0, Action.tick 1000000000, Action.fire 0, Action.recv 0] ++
        Action.remove 0 :: [Action.tick 1000000000])).map (fun x => x.now)
      = some (2 * Second) := by decide
  rw [hw3] at hnow
  simpa using hnow

/-! ## Reset while the goroutine is already past its `select` -/

/-- When the key is guarded (timer armed, goroutine not past its `select`), `Add` under
`ResetOnAdd` moves the guard to `now + i.Duration`. -/
theorem armed_Add_reset (w : World V) (key : String) (g : Nat) (T0 : Int) (value : Option V)
    (i : Nat) (hk : w.lookup key = some i) (hr : w.cache.ResetOnAdd = true)
    (ha : w.armedUntil key g T0) :
    (Add key value w).armedUntil key g (w.now + (w.heap i).Duration) := by
  obtain ⟨j, hl, hact, hC, _, hg, hkey, hpc⟩ := ha
  rw [hk] at hl
  cases hl
  have hact1 : ((w.setValue i value).timers ((w.setValue i value).heap i).Timer).active = true := by
    simpa [World.setValue] using hact
  have hl1 : (Add key value w).lookup key = some i := by
    rw [lookup_Add_present w key value i hk]; exact hk
  have he : Add key value w = ((w.setValue i value).reset i).store key i := by
    rw [Add_present w key value i hk, hr]; rfl
  have hT : ((Add key value w).heap i).Timer = (w.heap i).Timer := by
    rw [he, reset_armed _ i hact1]; simp [World.store, World.setValue]
  have htm : (Add key value w).timers (w.heap i).Timer =
      { w.timers (w.heap i).Timer with deadline := w.now + (w.heap i).Duration } := by
    rw [he, reset_armed _ i hact1]; simp [World.store, World.setValue]
  have hws : (Add key value w).watchers = w.watchers := by
    rw [he, reset_armed _ i hact1]; rfl
  have hnw : (Add key value w).nWatchers = w.nWatchers := by
    rw [he, reset_armed _ i hact1]; rfl
  refine ⟨i, hl1, ?_, ?_, ?_, by rw [hnw]; exact hg, by rw [hws]; exact hkey, ?_⟩
  · rw [hT, htm]; exact hact
  · rw [hT, htm]; exact hC
  · rw [hT, htm]
  · rw [hT, hws]; exact hpc

/-- The part of claim C2 that the code does deliver: if the key is still guarded when `Add` resets
it at instant `t`, then without a further `Add` of the key `Get` finds it at every instant
strictly before `t + i.Duration`. -/
theorem reset_guards_until (w : World V) (hw : w.Inv) (key : String) (g : Nat) (T0 : Int)
    (value : Option V) (i : Nat) (hk : w.lookup key = some i)
    (hr : w.cache.ResetOnAdd = true) (ha : w.armedUntil key g T0)
    (as : List (Action V)) (w2 : World V) (hna : ∀ a ∈ as, Action.isAdd key a = false)
    (hrun : run (Add key value w) as = some w2) (hlt : w2.now < w.now + (w.heap i).Duration) :
    (Get key w2).1.2 = true := by
  rcases armed_run as _ w2 (Inv_Add w hw key value) key g _
      (Or.inl (armed_Add_reset w key g T0 value i hk hr ha)) hna hrun with h1 | h1
  · obtain ⟨j, hl, _⟩ := h1
    rw [Get_eq, hl]
  · omega

/-- Whatever `Add` did in between, a goroutine that was already waiting for the lock deletes its
key when it gets the lock. -/
theorem locking_watcher_deletes (w : World V) (g : Nat) (value : Option V)
    (hg : g < w.nWatchers) (hpc : (w.watchers g).pc = PC.locking) :
    ∃ w1, run w [Action.add (w.watchers g).key value, Action.remove g] = some w1 ∧
      (Get (w.watchers g).key w1).1 = (none, false) := by
  have hs := watcher_stable_step w (Add (w.watchers g).key value w) g hg
    (Action.add (w.watchers g).key value) rfl
  have hpc1 : ((Add (w.watchers g).key value w).watchers g).pc = PC.locking := by
    cases hk : w.lookup (w.watchers g).key with
    | none =>
      rw [(Add_absent_frame w _ value hk).2.2.2.2.2.1, Function.update_noteq (by omega)]
      exact hpc
    | some i => rw [(Add_present_frame w _ value i hk).2.1]; exact hpc
  have hen : ∃ w1, (Add (w.watchers g).key value w).remove g = some w1 := by
    unfold World.remove
    rw [if_pos ⟨hs.1, hpc1⟩]
    exact ⟨_, rfl⟩
  obtain ⟨w1, hw1⟩ := hen
  refine ⟨w1, ?_, ?_⟩
  · simp [run, step, hw1]
  · rw [Get_eq, lookup_remove _ _ g hw1, hs.2]
    simp

/-- Claim C3 fails on the code.  Two-second cache with `ResetOnAdd`; the timer of `"a"` has fired
at 2s and its goroutine has received the value and waits for the lock.  `Add("a", "2")` runs first:
`Reset` reports false, a fresh timer is installed, the key is present with a full `TTL` of 2s.
Then the pending removal runs and deletes the key. -/
theorem stale_removal_deletes_reset_entry :
    (run ((World.boot (New (2 * Second)) 0 : World String).setResetOnAdd true)
        [Action.add "a" (some "1"), Action.start 0, Action.tick 2000000000, Action.fire 0,
          Action.recv 0]).map (fun w => ((w.watchers 0).pc, (Get "a" w).1))
      = some (PC.locking, (some "1", true)) ∧
    (run ((World.boot (New (2 * Second)) 0 : World String).setResetOnAdd true)
        [Action.add "a" (some "1"), Action.start 0, Action.tick 2000000000, Action.fire 0,
          Action.recv 0, Action.add "a" (some "2")]).map
        (fun w => ((Get "a" w).1, (TTL "a" w).1))
      = some ((some "2", true), (2 * Second, true)) ∧
    (run ((World.boot (New (2 * Second)) 0 : World String).setResetOnAdd true)
        [Action.add "a" (some "1"), Action.start 0, Action.tick 2000000000, Action.fire 0,
          Action.recv 0, Action.add "a" (some "2"), Action.remove 0]).map
        (fun w => (Get "a" w).1)
      = some (none, false) := by
  decide

/-- Claim C2 fails on the code.  Two-second cache with `ResetOnAdd`, `Add("item", "1")` at 0s; at
2s the timer fires and the goroutine receives; `Add("item", "2")` at `t = 2s` resets the entry
(`t + D = 4s`); the goroutine then takes the lock and deletes the key: at 2.5s, with no further
`Add`, `Get` does not find it. -/
theorem reset_lost_before_deadline :
    (run ((World.boot (New (2 * Second)) 0 : World String).setResetOnAdd true)
        [Action.add "item" (some "1"), Action.start 0, Action.tick 2000000000, Action.fire 0,
          Action.recv 0, Action.add "item" (some "2"), Action.remove 0,
          Action.tick 500000000]).map (fun w => (w.now, (Get "item" w).1))
      = some (2500000000, (none, false)) := by
  decide

/-- The scenario of the reset test: two-second cache with `ResetOnAdd`, `Add` at 0s and at 1s;
at 2.5s the key is found with the second value and its timer cannot fire yet; after the timer has
fired at 3s and the goroutine has run, the key is gone. -/
theorem reset_scenario :
    (run ((World.boot (New (2 * Second)) 0 : World String).setResetOnAdd true)
        [Action.add "item" (some "1"), Action.start 0, Action.tick 1000000000,
          Action.add "item" (some "2"), Action.tick 1500000000]).map
        (fun w => ((Get "item" w).1, (w.fire 0).isSome))
      = some ((some "2", true), false) ∧
    (run ((World.boot (New (2 * Second)) 0 : World String).setResetOnAdd true)
        [Action.add "item" (some "1"), Action.start 0, Action.tick 1000000000,
          Action.add "item" (some "2"), Action.tick 2000000000, Action.fire 0, Action.recv 0,
          Action.remove 0]).map (fun w => (w.now, (Get "item" w).1))
      = some (3000000000, (none, false)) := by
  decide

/-! ## A fresh cache, late `TTL`, and non-positive durations -/

theorem lookup_boot (c : Cache) (hc : c.items = ∅) (t0 : Int) (k : String) :
    (World.boot c t0 : World V).lookup k = none := by
  simp [World.lookup, World.boot, hc]

/-- Claim C11: for every duration `d`, `New(d)` is an empty cache with `Duration = d` and
`ResetOnAdd = false`: `Len()` is 0 and, for every key, `Get` returns `(nil, false)` and `TTL`
returns `(0, false)`. -/
theorem New_empty (d : Int) (t0 : Int) :
    (New d).Duration = d ∧ (New d).ResetOnAdd = false ∧
      (Len (World.boot (New d) t0 : World V)).1 = 0 ∧
      (∀ k, (Get k (World.boot (New d) t0 : World V)).1 = (none, false)) ∧
      (∀ k, (TTL k (World.boot (New d) t0 : World V)).1 = (0, false)) := by
  refine ⟨rfl, rfl, rfl, fun k => ?_, fun k => ?_⟩
  · rw [Get_eq, lookup_boot (New d) rfl]
  · rw [TTL_eq, lookup_boot (New d) rfl]

/-- Once the deadline `Start + Duration` of a present key has passed, `TTL` still reports the key
as found and the remaining duration is not positive. -/
theorem TTL_late (w : World V) (k : String) (i : Nat) (hk : w.lookup k = some i)
    (hlate : (w.heap i).Start + (w.heap i).Duration ≤ w.now) :
    (TTL k w).1.2 = true ∧ (TTL k w).1.1 ≤ 0 := by
  rw [TTL_eq, hk]
  refine ⟨rfl, ?_⟩
  simp only [Time.Add, Time.Sub, minDuration, maxDuration]
  split_ifs <;> omega

/-- Claim C12: `TTL` can report a non-positive remaining duration for a key it reports as found.
One-second cache, `Add("a")` at 0s; at 1.5s the timer has fired and the goroutine has received but
not yet removed the key: the state is reachable, the deadline has passed, and `TTL("a")` returns
`(-0.5s, true)`. -/
theorem TTL_nonpositive_found :
    ∃ w : World String, Reachable w ∧ w.lookup "a" = some 0 ∧
      (w.heap 0).Start + (w.heap 0).Duration ≤ w.now ∧
      (w.watchers 0).pc = PC.locking ∧
      (TTL "a" w).1 = (-500000000, true) ∧ (TTL "a" w).1.1 ≤ 0 := by
  have hsome : (run (World.boot (New Second) 0 : World String)
      [Action.add "a" (some "1"), Action.start 0, Action.tick 1500000000, Action.fire 0,
        Action.recv 0]).isSome = true := by decide
  obtain ⟨w, hw⟩ := Option.isSome_iff_exists.mp hsome
  have hobs : (run (World.boot (New Second) 0 : World String)
      [Action.add "a" (some "1"), Action.start 0, Action.tick 1500000000, Action.fire 0,
        Action.recv 0]).map
        (fun w => (w.lookup "a", decide ((w.heap 0).Start + (w.heap 0).Duration ≤ w.now),
          (w.watchers 0).pc, (TTL "a" w).1))
      = some (some 0, true, PC.locking, (-500000000, true)) := by decide
  rw [hw] at hobs
  simp only [Option.map_some', Option.some.injEq, Prod.mk.injEq, decide_eq_true_eq] at hobs
  obtain ⟨h1, h2, h3, h4⟩ := hobs
  refine ⟨w, ⟨Second, 0, _, hw⟩, h1, h2, h3, ?_, ?_⟩
  · exact h4
  · rw [h4]; decide

/-- After `Add` of an absent key under a non-positive cache duration, the whole expiry (the
goroutine enters its `select`, the timer fires, the goroutine receives and removes the key) can run
without the clock advancing. -/
theorem expiry_enabled_at_once (w : World V) (k : String) (v : Option V)
    (habs : w.lookup k = none) (hd : w.cache.Duration ≤ 0) :
    (∃ w1, step (Add k v w) (Action.fire w.nTimers) = some w1) ∧
      ∃ w4, run (Add k v w)
          [Action.start w.nWatchers, Action.fire w.nTimers, Action.recv w.nWatchers,
            Action.remove w.nWatchers] = some w4 ∧
        w4.now = w.now ∧ w4.lookup k = none := by
  rw [Add_absent w k v habs]
  constructor
  · simp only [step, World.fire, World.store, World.create, Function.update_same, NewTimer]
    rw [if_pos ⟨by omega, trivial, by omega⟩]
    exact ⟨_, rfl⟩
  · simp only [run, step, World.start, World.store, World.create, Function.update_same]
    rw [if_pos ⟨by omega, trivial⟩]
    simp only [Option.some_bind, World.fire, Function.update_same, NewTimer]
    rw [if_pos ⟨by omega, trivial, by omega⟩]
    simp only [Option.some_bind, World.recv, Function.update_same, Timer.fire]
    rw [if_pos (by omega)]
    simp only [if_true, Option.some_bind, World.remove, Function.update_same]
    rw [if_pos ⟨by omega, trivial⟩]
    refine ⟨_, rfl, rfl, ?_⟩
    simp [World.lookup]

/-- Claim C13: a zero or negative duration is accepted and gives immediate expiry.  For every
`d ≤ 0` (a `time.Duration`), `Add(k, v)` on `New(d)` is a step like any other, the key is inserted,
`Get` finds it, `TTL(k)` at the instant of the `Add` is `(d, true)`, the timer can fire at once and
the whole expiry can run without the clock advancing, after which the key is gone. -/
theorem nonpositive_Duration_accepted (d : Int) (hd : d ≤ 0) (hr : isDuration d) (t0 : Int)
    (k : String) (v : Option V) :
    step (World.boot (New d) t0) (Action.add k v) = some (Add k v (World.boot (New d) t0)) ∧
      (Add k v (World.boot (New d) t0)).lookup k = some 0 ∧
      (Get k (Add k v (World.boot (New d) t0))).1 = (v, true) ∧
      (TTL k (Add k v (World.boot (New d) t0))).1 = (d, true) ∧
      (∃ w1, step (Add k v (World.boot (New d) t0)) (Action.fire 0) = some w1) ∧
      ∃ w4, run (Add k v (World.boot (New d) t0))
          [Action.start 0, Action.fire 0, Action.recv 0, Action.remove 0] = some w4 ∧
        w4.now = t0 ∧ (Get k w4).1 = (none, false) := by
  have habs : (World.boot (New d) t0 : World V).lookup k = none := lookup_boot (New d) rfl t0 k
  have hl : (Add k v (World.boot (New d) t0)).lookup k = some 0 := by
    rw [lookup_Add_self, habs]; rfl
  obtain ⟨hf, w4, hrun, hnow, hgone⟩ :=
    expiry_enabled_at_once (World.boot (New d) t0) k v habs hd
  refine ⟨rfl, hl, ?_, ?_, hf, w4, hrun, hnow, ?_⟩
  · rw [Get_eq, hl, (Add_absent_frame _ k v habs).2.1]
    simp [World.boot]
  · rw [TTL_eq, hl, (Add_absent_frame _ k v habs).2.1, (Add_absent_frame _ k v habs).2.2.2.2.2.2.2]
    simp only [World.boot, Function.update_same, Time.Add, New]
    rw [Time.Sub_of_isDuration]
    · simp
    · simpa using hr
  · rw [Get_eq, hgone]

/-- Witness for claim C13: `New(-1s)`, `Add("a", "1")` at 0s. -/
theorem nonpositive_Duration_accepted_witness :
    (TTL "a" (Add "a" (some "1") (World.boot (New (-Second)) 0 : World String))).1
        = (-Second, true) ∧
      ∃ w4, run (Add "a" (some "1") (World.boot (New (-Second)) 0 : World String))
          [Action.start 0, Action.fire 0, Action.recv 0, Action.remove 0] = some w4 ∧
        w4.now = 0 ∧ (Get "a" w4).1 = (none, false) :=
  have h := nonpositive_Duration_accepted (-Second) (by decide) (by decide) 0 "a"
    (some "1" : Option String)
  ⟨h.2.2.2.1, h.2.2.2.2.2⟩

/-! ## Keys come and go only by `Add` and by their goroutine -/

/-- Only `Add` and a removal step change what a key maps to. -/
theorem lookup_step_other (w w1 : World V) (a : Action V) (hs : step w a = some w1)
    (hadd : ∀ key v, a ≠ Action.add key v) (hrem : ∀ g, a ≠ Action.remove g) (k : String) :
    w1.lookup k = w.lookup k := by
  cases a with
  | add key value => exact absurd rfl (hadd key value)
  | get key => simp only [step, Get_state, Option.some.injEq] at hs; subst hs; rfl
  | ttl key => simp only [step, TTL_state, Option.some.injEq] at hs; subst hs; rfl
  | len => simp only [step, Len, Option.some.injEq] at hs; subst hs; rfl
  | setDuration d => simp only [step, Option.some.injEq] at hs; subst hs; rfl
  | setResetOnAdd b => simp only [step, Option.some.injEq] at hs; subst hs; rfl
  | tick dt => simp only [step, Option.some.injEq] at hs; subst hs; rfl
  | fire t =>
    simp only [step, World.fire] at hs
    split_ifs at hs
    cases hs; rfl
  | start g =>
    simp only [step, World.start] at hs
    split_ifs at hs
    cases hs; rfl
  | recv g =>
    simp only [step, World.recv] at hs
    split_ifs at hs
    split at hs
    · split_ifs at hs
      cases hs; rfl
    · cases hs
  | remove g => exact absurd rfl (hrem g)

/-- Claim C17: per-key state machine.  In one step of the program a key goes from absent to
present only by an `Add` of that key, and from present to absent only by the removal step of a
goroutine holding that key; an `Add` never removes a key that was present. -/
theorem key_state_machine (w w1 : World V) (a : Action V) (hs : step w a = some w1)
    (k : String) :
    (w.lookup k = none → w1.lookup k ≠ none → ∃ v, a = Action.add k v) ∧
      (w.lookup k ≠ none → w1.lookup k = none →
        ∃ g, a = Action.remove g ∧ (w.watchers g).key = k ∧
          (w.watchers g).pc = PC.locking) ∧
      (∀ key v, a = Action.add key v → w.lookup k ≠ none → w1.lookup k ≠ none) := by
  refine ⟨?_, ?_, ?_⟩
  · intro habs hpres
    cases hna : Action.isAdd k a with
    | false => exact absurd (absent_step w w1 k habs a hna hs) hpres
    | true =>
      cases a with
      | add key value =>
        have : key = k := by simpa [Action.isAdd] using hna
        exact ⟨value, by rw [this]⟩
      | _ => simp [Action.isAdd] at hna
  · intro hpres habs
    cases a with
    | add key value =>
      simp only [step, Option.some.injEq] at hs; subst hs
      by_cases hk : k = key
      · subst hk; rw [lookup_Add_self] at habs; cases habs
      · rw [lookup_Add_other w key value k hk] at habs; exact absurd habs hpres
    | remove g =>
      have hl := lookup_remove w w1 g hs k
      obtain ⟨_, hpc, _⟩ := remove_eq w w1 g hs
      by_cases hk : k = (w.watchers g).key
      · exact ⟨g, rfl, hk.symm, hpc⟩
      · rw [if_neg hk] at hl
        rw [hl] at habs; exact absurd habs hpres
    | get key =>
      rw [lookup_step_other w w1 _ hs (by simp) (by simp) k] at habs; exact absurd habs hpres
    | ttl key =>
      rw [lookup_step_other w w1 _ hs (by simp) (by simp) k] at habs; exact absurd habs hpres
    | len =>
      rw [lookup_step_other w w1 _ hs (by simp) (by simp) k] at habs; exact absurd habs hpres
    | setDuration d =>
      rw [lookup_step_other w w1 _ hs (by simp) (by simp) k] at habs; exact absurd habs hpres
    | setResetOnAdd b =>
      rw [lookup_step_other w w1 _ hs (by simp) (by simp) k] at habs; exact absurd habs hpres
    | tick dt =>
      rw [lookup_step_other w w1 _ hs (by simp) (by simp) k] at habs; exact absurd habs hpres
    | fire t =>
      rw [lookup_step_other w w1 _ hs (by simp) (by simp) k] at habs; exact absurd habs hpres
    | start g =>
      rw [lookup_step_other w w1 _ hs (by simp) (by simp) k] at habs; exact absurd habs hpres
    | recv g =>
      rw [lookup_step_other w w1 _ hs (by simp) (by simp) k] at habs; exact absurd habs hpres
  · intro key v ha hpres
    subst ha
    simp only [step, Option.some.injEq] at hs; subst hs
    by_cases hk : k = key
    · subst hk; rw [lookup_Add_self]; simp
    · rw [lookup_Add_other w key v k hk]; exact hpres

/-- Witness for claim C17: the first `Add("a")` on a fresh cache is a step that takes `"a"` from
absent to present. -/
theorem key_state_machine_witness :
    ((World.boot (New Second) 0 : World String).lookup "a" = none →
      (Add "a" (some "1") (World.boot (New Second) 0 : World String)).lookup "a" ≠ none →
      ∃ v, (Action.add "a" (some "1") : Action String) = Action.add "a" v) ∧
    (Add "a" (some "1") (World.boot (New Second) 0 : World String)).lookup "a" = some 0 :=
  ⟨(key_state_machine (World.boot (New Second) 0 : World String)
      (Add "a" (some "1") (World.boot (New Second) 0)) (Action.add "a" (some "1")) rfl "a").1,
    by decide⟩

/-! ## One goroutine per key -/

/-- How a step changes the goroutines: none is added except by `Add` of an absent key, and a
goroutine that has returned stays so. -/
theorem watchers_step (w w1 : World V) (a : Action V) (hs : step w a = some w1) :
    (w1.nWatchers = w.nWatchers ∨
        ∃ k v, a = Action.add k v ∧ w.lookup k = none ∧ w1.nWatchers = w.nWatchers + 1 ∧
          w1.watchers w.nWatchers = { i := w.nItems, key := k, pc := PC.spawned }) ∧
      (∀ g, g < w.nWatchers → (w.watchers g).pc = PC.done → (w1.watchers g).pc = PC.done) ∧
      (∀ k v i, a = Action.add k v → w.lookup k = some i →
        w1.watchers = w.watchers ∧ w1.nWatchers = w.nWatchers) := by
  cases a with
  | add key value =>
    simp only [step, Option.some.injEq] at hs; subst hs
    cases hk : w.lookup key with
    | none =>
      obtain ⟨_, _, _, _, _, fw, fnw, _⟩ := Add_absent_frame w key value hk
      refine ⟨Or.inr ⟨key, value, rfl, hk, fnw, by rw [fw, Function.update_same]⟩, ?_, ?_⟩
      · intro g hg hd
        rw [fw, Function.update_noteq (by omega)]; exact hd
      · intro k v i ha hki
        cases ha
        rw [hk] at hki; cases hki
    | some i =>
      obtain ⟨_, fw, fnw, _⟩ := Add_present_frame w key value i hk
      exact ⟨Or.inl fnw, fun g _ hd => by rw [fw]; exact hd, fun _ _ _ _ _ => ⟨fw, fnw⟩⟩
  | get key =>
    simp only [step, Get_state, Option.some.injEq] at hs; subst hs
    exact ⟨Or.inl rfl, fun _ _ hd => hd, fun _ _ _ ha => by cases ha⟩
  | ttl key =>
    simp only [step, TTL_state, Option.some.injEq] at hs; subst hs
    exact ⟨Or.inl rfl, fun _ _ hd => hd, fun _ _ _ ha => by cases ha⟩
  | len =>
    simp only [step, Len, Option.some.injEq] at hs; subst hs
    exact ⟨Or.inl rfl, fun _ _ hd => hd, fun _ _ _ ha => by cases ha⟩
  | setDuration d =>
    simp only [step, Option.some.injEq] at hs; subst hs
    exact ⟨Or.inl rfl, fun _ _ hd => hd, fun _ _ _ ha => by cases ha⟩
  | setResetOnAdd b =>
    simp only [step, Option.some.injEq] at hs; subst hs
    exact ⟨Or.inl rfl, fun _ _ hd => hd, fun _ _ _ ha => by cases ha⟩
  | tick dt =>
    simp only [step, Option.some.injEq] at hs; subst hs
    exact ⟨Or.inl rfl, fun _ _ hd => hd, fun _ _ _ ha => by cases ha⟩
  | fire t =>
    simp only [step, World.fire] at hs
    split_ifs at hs
    cases hs
    exact ⟨Or.inl rfl, fun _ _ hd => hd, fun _ _ _ ha => by cases ha⟩
  | start g1 =>
    simp only [step, World.start] at hs
    split_ifs at hs with hg
    cases hs
    refine ⟨Or.inl rfl, ?_, fun _ _ _ ha => by cases ha⟩
    intro g _ hd
    have hne : g ≠ g1 := by
      intro he; rw [he, hg.2] at hd; cases hd
    simp only [Function.update_noteq hne]; exact hd
  | recv g1 =>
    simp only [step, World.recv] at hs
    split_ifs at hs
    split at hs
    · rename_i t hp1
      split_ifs at hs
      cases hs
      refine ⟨Or.inl rfl, ?_, fun _ _ _ ha => by cases ha⟩
      intro g _ hd
      have hne : g ≠ g1 := by
        intro he; rw [he, hp1] at hd; cases hd
      simp only [Function.update_noteq hne]; exact hd
    · cases hs
  | remove g1 =>
    obtain ⟨_, hp1, he⟩ := remove_eq w w1 g1 hs
    rw [he]
    refine ⟨Or.inl rfl, ?_, fun _ _ _ ha => by cases ha⟩
    intro g _ hd
    by_cases hne : g = g1
    · subst hne; simp
    · simp only [Function.update_noteq hne]; exact hd

/-- Claim C16: at most one expiry trigger per key.  In every reachable state no two goroutines that
can still delete share a key, and a key that is absent has none; a goroutine is started only by an
`Add` that finds its key absent; an `Add` of a present key (reset or not) starts none and leaves
the goroutines as they are; a goroutine that has returned never becomes active again. -/
theorem one_trigger_per_key (w : World V) (hw : Reachable w) :
    (∀ g1 g2, g1 < w.nWatchers → g2 < w.nWatchers →
        (w.watchers g1).pc ≠ PC.done → (w.watchers g2).pc ≠ PC.done →
        (w.watchers g1).key = (w.watchers g2).key → g1 = g2) ∧
      (∀ k, w.lookup k = none → ∀ g, g < w.nWatchers → (w.watchers g).key = k →
        (w.watchers g).pc = PC.done) ∧
      (∀ a w1, step w a = some w1 →
        (w1.nWatchers = w.nWatchers ∨
          ∃ k v, a = Action.add k v ∧ w.lookup k = none ∧ w1.nWatchers = w.nWatchers + 1 ∧
            w1.watchers w.nWatchers = { i := w.nItems, key := k, pc := PC.spawned }) ∧
        (∀ g, g < w.nWatchers → (w.watchers g).pc = PC.done → (w1.watchers g).pc = PC.done) ∧
        (∀ k v i, a = Action.add k v → w.lookup k = some i →
          w1.watchers = w.watchers ∧ w1.nWatchers = w.nWatchers)) := by
  have hinv := hw.Inv
  refine ⟨hinv.watcher_inj, ?_, fun a w1 hs => watchers_step w w1 a hs⟩
  intro k habs g hg hkey
  by_contra hpc
  have := hinv.watcher_key g hg hpc
  rw [hkey, habs] at this
  cases this

/-- Witness for claim C16: after `Add("a")`, a reset `Add("a")` and `Add("b")` on a two-second
cache there are exactly two goroutines, one per key. -/
theorem one_trigger_per_key_witness :
    ∃ w : World String, Reachable w ∧ w.nWatchers = 2 ∧
      (w.watchers 0).key = "a" ∧ (w.watchers 1).key = "b" ∧
      ∀ g1 g2, g1 < w.nWatchers → g2 < w.nWatchers →
        (w.watchers g1).pc ≠ PC.done → (w.watchers g2).pc ≠ PC.done →
        (w.watchers g1).key = (w.watchers g2).key → g1 = g2 := by
  have hsome : (run (World.boot (New (2 * Second)) 0 : World String)
      [Action.setResetOnAdd true, Action.add "a" (some "1"), Action.tick 1000000000,
        Action.add "a" (some "2"), Action.add "b" (some "3")]).isSome = true := by decide
  obtain ⟨w, hw⟩ := Option.isSome_iff_exists.mp hsome
  have hobs : (run (World.boot (New (2 * Second)) 0 : World String)
      [Action.setResetOnAdd true, Action.add "a" (some "1"), Action.tick 1000000000,
        Action.add "a" (some "2"), Action.add "b" (some "3")]).map
        (fun w => (w.nWatchers, (w.watchers 0).key, (w.watchers 1).key))
      = some (2, "a", "b") := by decide
  rw [hw] at hobs
  simp only [Option.map_some', Option.some.injEq, Prod.mk.injEq] at hobs
  exact ⟨w, ⟨2 * Second, 0, _, hw⟩, hobs.1, hobs.2.1, hobs.2.2,
    (one_trigger_per_key w ⟨2 * Second, 0, _, hw⟩).1⟩

/-! ## `Len` under `Add` and expiry -/

theorem reset_cache (w : World V) (i : Nat) : (w.reset i).cache = w.cache := by
  unfold World.reset
  dsimp only
  split <;> rfl

theorem items_Add (w : World V) (key : String) (value : Option V) :
    (Add key value w).cache.items = w.cache.items.insert key ((w.lookup key).getD w.nItems) := by
  cases hk : w.lookup key with
  | none => rw [Add_absent w key value hk]; rfl
  | some i =>
    rw [Add_present w key value i hk]
    cases w.cache.ResetOnAdd
    · rfl
    · simp only [if_true, World.store, reset_cache]
      rfl

theorem Len_eq_keys (w : World V) : (Len w).1 = w.cache.items.keys.length := by
  simp [Len, AList.keys, List.keys]

theorem mem_keys_iff_lookup (w : World V) (k : String) :
    k ∈ w.cache.items.keys ↔ ∃ i, w.lookup k = some i := by
  rw [← AList.mem_keys, ← AList.lookup_isSome, Option.isSome_iff_exists]
  rfl

/-- Claim C19: `Len()` after `Add(k, v)` is `Len()` before plus one when `k` was absent and is
unchanged when `k` was present, for both settings of `ResetOnAdd`; the removal step of a goroutine
whose key is present decreases `Len()` by exactly one, and in a reachable state every removal step
is of that kind. -/
theorem Len_changes (w : World V) (k : String) (v : Option V) :
    (w.lookup k = none → (Len (Add k v w)).1 = (Len w).1 + 1) ∧
      (∀ i, w.lookup k = some i → (Len (Add k v w)).1 = (Len w).1) ∧
      (∀ g w1 i, w.remove g = some w1 → w.lookup (w.watchers g).key = some i →
        (Len w1).1 + 1 = (Len w).1) ∧
      (Reachable w → ∀ g w1, w.remove g = some w1 → (Len w1).1 + 1 = (Len w).1) := by
  have hrem : ∀ g w1 i, w.remove g = some w1 → w.lookup (w.watchers g).key = some i →
      (Len w1).1 + 1 = (Len w).1 := by
    intro g w1 i hs hk
    obtain ⟨_, _, he⟩ := remove_eq w w1 g hs
    have hmem : (w.watchers g).key ∈ w.cache.items.keys :=
      (mem_keys_iff_lookup w _).mpr ⟨i, hk⟩
    have hpos : 0 < w.cache.items.keys.length := List.length_pos_of_mem hmem
    rw [Len_eq_keys, Len_eq_keys, he]
    simp only [AList.keys_erase]
    rw [List.length_erase_of_mem hmem]
    omega
  refine ⟨?_, ?_, hrem, ?_⟩
  · intro hk
    have hnot : k ∉ w.cache.items.keys := by
      rw [mem_keys_iff_lookup, hk]; simp
    rw [Len_eq_keys, Len_eq_keys, items_Add, AList.keys_insert, List.length_cons,
      List.erase_of_not_mem hnot]
  · intro i hk
    have hmem : k ∈ w.cache.items.keys := (mem_keys_iff_lookup w k).mpr ⟨i, hk⟩
    have hpos : 0 < w.cache.items.keys.length := List.length_pos_of_mem hmem
    rw [Len_eq_keys, Len_eq_keys, items_Add, AList.keys_insert, List.length_cons,
      List.length_erase_of_mem hmem]
    omega
  · intro hw g w1 hs
    obtain ⟨hg, hpc, _⟩ := remove_eq w w1 g hs
    exact hrem g w1 _ hs (hw.Inv.watcher_key g hg (by rw [hpc]; simp))

/-- Witness for claim C19: on a one-second cache `Add("a")` takes `Len()` from 0 to 1, a second
`Add("a")` leaves it at 1, and the removal by the goroutine takes it back to 0. -/
theorem Len_changes_witness :
    (Len (Add "a" (some "1") (World.boot (New Second) 0 : World String))).1 = 0 + 1 ∧
      (Len (Add "a" (some "2")
        (Add "a" (some "1") (World.boot (New Second) 0 : World String)))).1 = 1 ∧
      ∃ w w1 : World String, Reachable w ∧ w.remove 0 = some w1 ∧ (Len w).1 = 1 ∧
        (Len w1).1 + 1 = (Len w).1 := by
  refine ⟨(Len_changes (World.boot (New Second) 0 : World String) "a" (some "1")).1
      (by decide), ?_, ?_⟩
  · rw [(Len_changes (Add "a" (some "1") (World.boot (New Second) 0 : World String)) "a"
      (some "2")).2.1 0 (by decide)]
    decide
  · have hsome : (run (World.boot (New Second) 0 : World String)
        [Action.add "a" (some "1"), Action.start 0, Action.tick 1000000000, Action.fire 0,
          Action.recv 0]).isSome = true := by decide
    obtain ⟨w, hw⟩ := Option.isSome_iff_exists.mp hsome
    have hobs : (run (World.boot (New Second) 0 : World String)
        [Action.add "a" (some "1"), Action.start 0, Action.tick 1000000000, Action.fire 0,
          Action.recv 0]).map (fun w => ((w.remove 0).isSome, (Len w).1))
        = some (true, 1) := by decide
    rw [hw] at hobs
    simp only [Option.map_some', Option.some.injEq, Prod.mk.injEq] at hobs
    obtain ⟨w1, hw1⟩ := Option.isSome_iff_exists.mp hobs.1
    exact ⟨w, w1, ⟨Second, 0, _, hw⟩, hw1, hobs.2,
      (Len_changes w "a" (none : Option String)).2.2.2 ⟨Second, 0, _, hw⟩ 0 w1 hw1⟩

/-! ## Keys do not interfere -/

/-- What `Get` and `TTL` return for a key, now and at any later instant, depends only on what the
key maps to, on that item, and on the clock. -/
theorem observe_congr (w w1 : World V) (k : String) (hl : w1.lookup k = w.lookup k)
    (hh : ∀ i, w.lookup k = some i → w1.heap i = w.heap i) (hn : w1.now = w.now) :
    (Get k w1).1 = (Get k w).1 ∧ (TTL k w1).1 = (TTL k w).1 ∧
      ∀ dt, (Get k (w1.tick dt)).1 = (Get k (w.tick dt)).1 ∧
        (TTL k (w1.tick dt)).1 = (TTL k (w.tick dt)).1 := by
  have key : ∀ (x x1 : World V), x1.lookup k = x.lookup k →
      (∀ i, x.lookup k = some i → x1.heap i = x.heap i) → x1.now = x.now →
      (Get k x1).1 = (Get k x).1 ∧ (TTL k x1).1 = (TTL k x).1 := by
    intro x x1 h1 h2 h3
    rw [Get_eq, Get_eq, TTL_eq, TTL_eq, h1, h3]
    cases hk : x.lookup k with
    | none => exact ⟨rfl, rfl⟩
    | some i => simp only [h2 i hk, and_self]
  refine ⟨(key w w1 hl hh hn).1, (key w w1 hl hh hn).2, fun dt => ?_⟩
  exact key (w.tick dt) (w1.tick dt) hl hh (by simp [World.tick, hn])

/-- Claim C18: per-key isolation.  In a reachable state, for distinct keys `k` and `k1`, neither
`Add(k, v)` nor the removal step of a goroutine of `k` changes what `k1` maps to, nor the item of
`k1`, nor its timer; so `Get(k1)` and `TTL(k1)`, at the same instant and at any later one, return
what they would have returned without the step. -/
theorem key_isolation (w : World V) (hw : Reachable w) (k k1 : String) (hne : k1 ≠ k) :
    (∀ v, (Add k v w).lookup k1 = w.lookup k1 ∧
        (∀ i1, w.lookup k1 = some i1 → (Add k v w).heap i1 = w.heap i1 ∧
          (Add k v w).timers (w.heap i1).Timer = w.timers (w.heap i1).Timer) ∧
        (Get k1 (Add k v w)).1 = (Get k1 w).1 ∧ (TTL k1 (Add k v w)).1 = (TTL k1 w).1 ∧
        ∀ dt, (Get k1 ((Add k v w).tick dt)).1 = (Get k1 (w.tick dt)).1 ∧
          (TTL k1 ((Add k v w).tick dt)).1 = (TTL k1 (w.tick dt)).1) ∧
      (∀ g w1, (w.watchers g).key = k → w.remove g = some w1 →
        w1.lookup k1 = w.lookup k1 ∧ w1.heap = w.heap ∧ w1.timers = w.timers ∧
        (Get k1 w1).1 = (Get k1 w).1 ∧ (TTL k1 w1).1 = (TTL k1 w).1 ∧
        ∀ dt, (Get k1 (w1.tick dt)).1 = (Get k1 (w.tick dt)).1 ∧
          (TTL k1 (w1.tick dt)).1 = (TTL k1 (w.tick dt)).1) := by
  have hinv := hw.Inv
  constructor
  · intro v
    have hl : (Add k v w).lookup k1 = w.lookup k1 := lookup_Add_other w k v k1 hne
    have hframe : ∀ i1, w.lookup k1 = some i1 → (Add k v w).heap i1 = w.heap i1 ∧
        (Add k v w).timers (w.heap i1).Timer = w.timers (w.heap i1).Timer := by
      intro i1 h1
      have hi := hinv.item_lt k1 i1 h1
      have ht := hinv.timer_lt k1 i1 h1
      cases hk : w.lookup k with
      | none =>
        obtain ⟨_, fh, _, ft, _⟩ := Add_absent_frame w k v hk
        rw [fh, ft, Function.update_noteq (by omega), Function.update_noteq (by omega)]
        exact ⟨rfl, rfl⟩
      | some i =>
        obtain ⟨_, _, _, _, _, fh, ft, _⟩ := Add_present_frame w k v i hk
        have hii : i1 ≠ i := by
          intro he; subst he; exact hne (hinv.item_inj k1 k i1 h1 hk)
        have htt : (w.heap i1).Timer ≠ (w.heap i).Timer := by
          intro he; exact hne (hinv.timer_inj k1 k i1 i h1 hk he)
        exact ⟨fh i1 hii, ft _ htt ht⟩
    have hnow : (Add k v w).now = w.now := by
      cases hk : w.lookup k with
      | none => exact (Add_absent_frame w k v hk).2.2.2.2.2.2.2
      | some i => exact (Add_present_frame w k v i hk).2.2.2.1
    obtain ⟨o1, o2, o3⟩ := observe_congr w (Add k v w) k1 hl (fun i h => (hframe i h).1) hnow
    exact ⟨hl, hframe, o1, o2, o3⟩
  · intro g w1 hkey hs
    have hl : w1.lookup k1 = w.lookup k1 := by
      rw [lookup_remove w w1 g hs, hkey, if_neg hne]
    obtain ⟨_, _, he⟩ := remove_eq w w1 g hs
    have hh : w1.heap = w.heap := by rw [he]
    have ht : w1.timers = w.timers := by rw [he]
    have hn : w1.now = w.now := by rw [he]
    obtain ⟨o1, o2, o3⟩ := observe_congr w w1 k1 hl (fun i _ => by rw [hh]) hn
    exact ⟨hl, hh, ht, o1, o2, o3⟩

/-- Witness for claim C18: with `"a"` and `"b"` in a two-second cache under `ResetOnAdd`, a reset
`Add("a")` one second later leaves `TTL("b")` as it was. -/
theorem key_isolation_witness :
    ∃ w : World String, Reachable w ∧ (TTL "b" w).1 = (Second, true) ∧
      (TTL "b" (Add "a" (some "3") w)).1 = (TTL "b" w).1 := by
  have hsome : (run (World.boot (New (2 * Second)) 0 : World String)
      [Action.setResetOnAdd true, Action.add "a" (some "1"), Action.add "b" (some "2"),
        Action.tick 1000000000]).isSome = true := by decide
  obtain ⟨w, hw⟩ := Option.isSome_iff_exists.mp hsome
  have hobs : (run (World.boot (New (2 * Second)) 0 : World String)
      [Action.setResetOnAdd true, Action.add "a" (some "1"), Action.add "b" (some "2"),
        Action.tick 1000000000]).map (fun w => (TTL "b" w).1) = some (Second, true) := by
    decide
  rw [hw] at hobs
  simp only [Option.map_some', Option.some.injEq] at hobs
  exact ⟨w, ⟨2 * Second, 0, _, hw⟩, hobs,
    ((key_isolation w ⟨2 * Second, 0, _, hw⟩ "a" "b" (by decide)).1 (some "3")).2.2.2.1⟩

/-! ## The timer installed by a reset that found the old one fired -/

/-- Claim C15 fails on the code.  Two-second cache with `ResetOnAdd`, `Add("a", "1")` at 0s; at 2s
the timer fires and the goroutine receives and waits for the lock; `Add("a", "2")` runs first.
`Reset` reports false and a fresh timer (timer 1) is installed in the item, armed for 4s; the key
is in the map, but the only goroutine there is has left its `select`, so no goroutine waits on
the fresh timer.  When timer 1 fires at 4s its value stays in the channel, no goroutine can
receive it; and the goroutine that had received from the old timer deletes the key as soon as it
gets the lock, at 2s. -/
theorem reset_installs_unwatched_timer :
    (run (World.boot (New (2 * Second)) 0 : World String)
        [Action.setResetOnAdd true, Action.add "a" (some "1"), Action.start 0,
          Action.tick 2000000000, Action.fire 0, Action.recv 0,
          Action.add "a" (some "2")]).map
        (fun w => (w.lookup "a", (w.heap 0).Timer, (w.timers 1).active, (w.timers 1).deadline))
      = some (some 0, 1, true, 4000000000) ∧
    (run (World.boot (New (2 * Second)) 0 : World String)
        [Action.setResetOnAdd true, Action.add "a" (some "1"), Action.start 0,
          Action.tick 2000000000, Action.fire 0, Action.recv 0,
          Action.add "a" (some "2")]).map
        (fun w => (w.nWatchers, (w.watchers 0).key, (w.watchers 0).pc))
      = some (1, "a", PC.locking) ∧
    (run (World.boot (New (2 * Second)) 0 : World String)
        [Action.setResetOnAdd true, Action.add "a" (some "1"), Action.start 0,
          Action.tick 2000000000, Action.fire 0, Action.recv 0,
          Action.add "a" (some "2"), Action.tick 2000000000, Action.fire 1]).map
        (fun w => (w.now, (w.timers 1).C, (w.recv 0).isSome, (w.start 0).isSome))
      = some (4000000000, true, false, false) ∧
    (run (World.boot (New (2 * Second)) 0 : World String)
        [Action.setResetOnAdd true, Action.add "a" (some "1"), Action.start 0,
          Action.tick 2000000000, Action.fire 0, Action.recv 0,
          Action.add "a" (some "2"), Action.remove 0]).map
        (fun w => (w.now, (Get "a" w).1, (w.timers 1).active, (w.watchers 0).pc))
      = some (2000000000, (none, false), true, PC.done) := by
  decide

/-! ## What the lock does and does not guard -/

/-- Steps that both hold the lock never race, and the only step outside the lock that touches
guarded memory is the goroutine entering its `select`: every data race has it on one side. -/
theorem race_only_at_select (w : World V) (a b : Action V) (h : w.dataRace a b = true) :
    (∃ g, a = Action.start g) ∨ (∃ g, b = Action.start g) := by
  cases a <;> cases b <;>
    simp [World.dataRace, Action.holdsLock, World.reads, World.writes] at h ⊢

/-- Claim C14 fails on the code.  Zero-duration cache with `ResetOnAdd`, `Add("a", "1")`; the timer
fires at once, before the goroutine has evaluated `i.Timer.C`.  Now `Add("a", "2")` (under the
lock, `Reset` reports false, so it writes `i.Timer`) and the goroutine's evaluation of `i.Timer.C`
(outside the lock) are both possible: a data race on the `Timer` field of item 0.  The two orders
leave the goroutine waiting on different timers. -/
theorem select_races_with_reset :
    (run (World.boot (New 0) 0 : World String)
        [Action.setResetOnAdd true, Action.add "a" (some "1"), Action.fire 0]).map
        (fun w => ((Action.start 0 : Action String).holdsLock,
          w.reads (Action.start 0 : Action String),
          w.writes (Action.add "a" (some "2")),
          w.dataRace (Action.start 0) (Action.add "a" (some "2"))))
      = some (false, [Loc.Timer 0], [Loc.Value 0, Loc.Timer 0, Loc.Start 0, Loc.items], true) ∧
    (run (World.boot (New 0) 0 : World String)
        [Action.setResetOnAdd true, Action.add "a" (some "1"), Action.fire 0,
          Action.add "a" (some "2"), Action.start 0]).map (fun w => (w.watchers 0).pc)
      = some (PC.selecting 1) ∧
    (run (World.boot (New 0) 0 : World String)
        [Action.setResetOnAdd true, Action.add "a" (some "1"), Action.fire 0,
          Action.start 0, Action.add "a" (some "2")]).map (fun w => (w.watchers 0).pc)
      = some (PC.selecting 0) := by
  decide

end ttl
